import Mathlib

/-!
Verification development for the Word-document editing utilities
(`word_document_server/utils/document_utils.py` and
`word_document_server/utils/extended_document_utils.py`).

Texts are modelled as lists of characters (Python `str`), paragraphs as lists
of runs, a document body as an ordered list of block elements (paragraphs and
tables), and the on-disk file as a `FileState` (missing, malformed, or a
well-formed document).  Every operation of the source is embedded as a pure
Lean function from the file state and the operation's parameters to a result
descriptor together with the new file state; loops whose termination is in
question (the cross-run replacement loop) are embedded with an explicit fuel
parameter, `none` meaning that the loop has not finished within the given
fuel.
-/

set_option maxRecDepth 10000

namespace WordSrv

/-- Python `str` is modelled as a list of characters. -/
abbrev Text := List Char

/-- Convenience conversion from a Lean string literal to a modelled text. -/
def str (s : String) : Text := s.toList

/-- Characters that Python's regex `\s` and `str.split()` treat as whitespace,
restricted to the characters that can appear in this development (ASCII
whitespace and the no-break space U+00A0). -/
def isWs (c : Char) : Bool :=
  c = ' ' || c = '\t' || c = '\n' || c = '\r' || c = '\x0b' || c = '\x0c' || c = ' '

/-- Model of `unicodedata.normalize("NFKC", ·)` acting on one character.
Compatibility variants are mapped to their canonical forms; all other
characters (in particular all ASCII characters) are NFKC-invariant.  The
table lists the compatibility characters exercised by this development. -/
def nfkcChar : Char → Text
  | ' ' => [' ']        -- no-break space → space
  | 'Ａ' => ['A']            -- fullwidth latin capital A
  | 'ａ' => ['a']            -- fullwidth latin small a
  | '１' => ['1']            -- fullwidth digit one
  | 'ﬁ' => ['f', 'i']        -- latin small ligature fi
  | c => [c]

/-- Helper for `collapseWs`: `inWs` records whether the previous character was
whitespace (i.e. we are inside a whitespace run that has already emitted its
single space). -/
def collapseWsAux (inWs : Bool) : Text → Text
  | [] => []
  | c :: cs =>
    if isWs c then
      if inWs then collapseWsAux true cs else ' ' :: collapseWsAux true cs
    else c :: collapseWsAux false cs

/-- Model of `re.sub(r'\s+', ' ', s)`: every maximal whitespace run becomes a
single ASCII space. -/
def collapseWs (s : Text) : Text := collapseWsAux false s

/-- Model of `str.strip()`: remove leading and trailing whitespace. -/
def stripT (s : Text) : Text :=
  ((s.dropWhile isWs).reverse.dropWhile isWs).reverse

/-- Model of `_normalize_text`: NFKC-normalize, collapse whitespace runs to a
single space, strip. -/
def normalize_text (s : Text) : Text :=
  stripT (collapseWs (s.flatMap nfkcChar))

/-- Model of Python `str.lower()` on the characters appearing in this
development (ASCII letters, plus the accented capital of the style name
"Título" used by the source). -/
def pyLowerChar (c : Char) : Char :=
  if c = 'Í' then 'í' else c.toLower

/-- Lower-case a text, Python `str.lower()`. -/
def lowerT (s : Text) : Text := s.map pyLowerChar

/-- Model of Python `str.upper()` on the characters of this development. -/
def upperT (s : Text) : Text := s.map Char.toUpper

/-- First index (if any) at which `pat` occurs in `hay`; model of Python
`str.find` (with `-1` rendered as `none`).  The scan is leftmost-first. -/
def findSub (pat : Text) : Text → Option Nat
  | [] => if pat.isPrefixOf [] then some 0 else none
  | c :: t =>
    if pat.isPrefixOf (c :: t) then some 0 else (findSub pat t).map (· + 1)

/-- Model of Python's `pat in hay` substring test. -/
def containsT (hay pat : Text) : Bool := (findSub pat hay).isSome

/-- Model of Python `str.split()` (split on whitespace runs, dropping empty
words). -/
def splitWs : Text → List Text
  | [] => []
  | c :: cs =>
    if isWs c then splitWs cs
    else
      match splitWs cs with
      | [] => [[c]]
      | w :: ws =>
        match cs with
        | [] => [[c]]
        | c' :: _ => if isWs c' then [c] :: w :: ws else (c :: w) :: ws

/-- Model of Python list indexing `l[i]` (negative indices count from the
end); `none` models an `IndexError`. -/
def pyGet (l : List α) (i : Int) : Option α :=
  let j : Int := if i < 0 then (l.length : Int) + i else i
  if 0 ≤ j then l.get? j.toNat else none

/-- First index in a list satisfying a predicate; every "scan in document
order, first match wins" loop of the source is embedded through this
function. -/
def firstIdx (p : α → Bool) : List α → Option Nat
  | [] => none
  | a :: l => if p a then some 0 else (firstIdx p l).map (· + 1)

/-! ## Data model -/

/-- Character-run formatting, as stored in a run's `rPr` element.  `none`
means the corresponding property element is absent. -/
structure RunProps where
  bold : Option Bool := none
  italic : Option Bool := none
  underline : Option Bool := none
  caps : Option Bool := none
  size : Option Nat := none
  fontName : Option Text := none
  color : Option Text := none
  deriving Repr, DecidableEq

/-- A run: a formatting-homogeneous text fragment within a paragraph. -/
structure Run where
  text : Text
  props : RunProps := {}
  deriving Repr, DecidableEq

/-- A paragraph: an optional style name, an ordered list of runs, and the
numbering properties installed by `add_bullet_numbering` (numbering id and
indentation level), absent by default. -/
structure Para where
  style : Option Text := none
  runs : List Run := []
  numPr : Option (Nat × Nat) := none
  deriving Repr, DecidableEq

/-- Paragraph text: the concatenation of its run texts (python-docx
`Paragraph.text`). -/
def Para.text (p : Para) : Text := (p.runs.map Run.text).flatten

/-- A table: rows of cells, each cell an ordered list of paragraphs. -/
structure Table where
  rows : List (List (List Para))
  deriving Repr, DecidableEq

/-- A block-level element of the document body. -/
inductive Elem
  | para (p : Para)
  | table (t : Table)
  deriving Repr, DecidableEq

/-- A document: the ordered body elements plus the set of style names defined
in the document's style part. -/
structure Document where
  elements : List Elem
  styles : List Text
  deriving Repr, DecidableEq

/-- The paragraphs (in order) of a body-element list. -/
def parasOf (es : List Elem) : List Para :=
  es.filterMap fun e =>
    match e with
    | .para p => some p
    | .table _ => none

/-- The tables (in order) of a body-element list. -/
def tablesOf (es : List Elem) : List Table :=
  es.filterMap fun e =>
    match e with
    | .para _ => none
    | .table t => some t

/-- Model of `doc.paragraphs`: the top-level body paragraphs in order (table
cell paragraphs are not included). -/
def Document.paragraphs (d : Document) : List Para := parasOf d.elements

/-- Model of `doc.tables`: the top-level tables in order. -/
def Document.tables (d : Document) : List Table := tablesOf d.elements

/-- The state of the file at the operation's path: absent, present but not a
readable OOXML document (so that opening it raises), or a well-formed
document. -/
inductive FileState
  | missing
  | malformed
  | doc (d : Document)
  deriving Repr, DecidableEq

/-- Model of `para.style and para.style.name.upper().startswith("TOC")`
(`is_toc_paragraph`). -/
def is_toc_paragraph (p : Para) : Bool :=
  match p.style with
  | none => false
  | some st => (str "TOC").isPrefixOf (upperT st)

/-- Model of `para.style and para.style.name.lower().startswith("heading")`
(`is_heading_paragraph`). -/
def is_heading_paragraph (p : Para) : Bool :=
  match p.style with
  | none => false
  | some st => (str "heading").isPrefixOf (lowerT st)

/-- Style name of a paragraph as reported by the source
(`para.style.name if para.style else "Normal"`). -/
def Para.styleName (p : Para) : Text := p.style.getD (str "Normal")

/-- Python truthiness of an optional string parameter (`None` and the empty
string are falsy). -/
def truthy : Option Text → Bool
  | none => false
  | some s => !s.isEmpty

/-! ## Cross-run text replacement (`_replace_in_paragraph`) -/

/-- The character-to-run map of `_replace_in_paragraph`, built from run index
`ri` on: one entry `(run_index, offset_in_run)` per character of the
concatenated run texts. -/
def charMapFrom : Nat → List Run → List (Nat × Nat)
  | _, [] => []
  | ri, r :: rs =>
    ((List.range r.text.length).map fun ci => (ri, ci)) ++ charMapFrom (ri + 1) rs

/-- The character-to-run map, starting at run index `0`. -/
def charMap (rs : List Run) : List (Nat × Nat) := charMapFrom 0 rs

/-- Apply `f i r` to the run at each index `i`, starting from index `k`;
models the source's in-place mutation of `runs[i].text`. -/
def mapWithIdx (f : Nat → Run → Run) : Nat → List Run → List Run
  | _, [] => []
  | k, r :: rs => f k r :: mapWithIdx f (k + 1) rs

/-- The single-run splice of `_replace_in_paragraph`:
`run.text = run.text[:start_ci] + new_text + run.text[end_ci + 1:]` applied
at run index `ri0`. -/
def singleSplice (rs : List Run) (ri0 ci0 ci1 : Nat) (new : Text) : List Run :=
  mapWithIdx
    (fun j r =>
      if j = ri0 then { r with text := r.text.take ci0 ++ new ++ r.text.drop (ci1 + 1) }
      else r)
    0 rs

/-- The multi-run splice of `_replace_in_paragraph`: the first spanned run
keeps its prefix and receives the whole replacement, intermediate runs are
emptied (not removed), the last spanned run keeps only its suffix after the
match. -/
def spliceRuns (rs : List Run) (ri0 ci0 ri1 ci1 : Nat) (new : Text) : List Run :=
  mapWithIdx
    (fun j r =>
      if j = ri0 then { r with text := r.text.take ci0 ++ new }
      else if ri0 < j ∧ j < ri1 then { r with text := [] }
      else if j = ri1 then { r with text := r.text.drop (ci1 + 1) }
      else r)
    0 rs

/-- Outcome of one iteration of the `while` body of `_replace_in_paragraph`:
a `break` (leaving the paragraph unchanged), an uncaught `IndexError` from
`char_map[...]`, or one performed replacement. -/
inductive StepRes
  | brk
  | raised
  | next (p : Para)
  deriving Repr, DecidableEq

/-- One iteration of the loop body of `_replace_in_paragraph`, entered with
`old_text in para.text` already established. -/
def replStep (p : Para) (old new : Text) : StepRes :=
  let T := p.text
  match findSub old T with
  | none => .brk                       -- if start < 0: break
  | some s =>
    let e := s + old.length
    if p.runs.isEmpty then .brk        -- if not runs: break
    else
      let cm := charMap p.runs
      if e > cm.length then .brk       -- if end > len(char_map): break
      else
        match pyGet cm (s : Int), pyGet cm ((e : Int) - 1) with
        | some (ri0, ci0), some (ri1, ci1) =>
          if ri0 = ri1 then
            .next { p with runs := singleSplice p.runs ri0 ci0 ci1 new }
          else
            .next { p with runs := spliceRuns p.runs ri0 ci0 ri1 ci1 new }
        | _, _ => .raised              -- char_map[...] IndexError

/-- Final outcome of `_replace_in_paragraph`: either the function returns
(with the mutated paragraph and the replacement count) or an `IndexError`
escapes. -/
inductive LoopRes
  | done (p : Para) (count : Nat)
  | raised
  deriving Repr, DecidableEq

/-- The `while old_text in para.text` loop of `_replace_in_paragraph`,
with fuel: `none` means the loop has not finished within `fuel` iterations
(in particular, a loop that never finishes yields `none` at every fuel). -/
def replLoopF : Nat → Para → Text → Text → Nat → Option LoopRes
  | 0, _, _, _, _ => none
  | fuel + 1, p, old, new, count =>
    if containsT p.text old then
      match replStep p old new with
      | .brk => some (.done p count)
      | .raised => some .raised
      | .next p' => replLoopF fuel p' old new (count + 1)
    else some (.done p count)

/-- Model of `_replace_in_paragraph(para, old_text, new_text)`. -/
def replace_in_paragraph (fuel : Nat) (p : Para) (old new : Text) :
    Option LoopRes :=
  replLoopF fuel p old new 0

/-! ## `find_and_replace_text` -/

/-- The TOC-skip test of `find_and_replace_text`:
`para.style and para.style.name.startswith("TOC")` (case-sensitive). -/
def isTOCfr (p : Para) : Bool :=
  match p.style with
  | none => false
  | some st => (str "TOC").isPrefixOf st

/-- Processing of one paragraph by `find_and_replace_text`: TOC paragraphs
are skipped; otherwise, when `old_text in para.text`, the cross-run
replacement loop runs.  `Except Unit` carries a propagating fault. -/
def farPara (fuel : Nat) (old new : Text) (p : Para) :
    Option (Except Unit (Para × Nat)) :=
  if isTOCfr p then some (.ok (p, 0))
  else if containsT p.text old then
    match replace_in_paragraph fuel p old new with
    | none => none
    | some .raised => some (.error ())
    | some (.done p' c) => some (.ok (p', c))
  else some (.ok (p, 0))

/-- Processing of a list of paragraphs in order, summing the counts. -/
def farParas (fuel : Nat) (old new : Text) :
    List Para → Option (Except Unit (List Para × Nat))
  | [] => some (.ok ([], 0))
  | p :: ps =>
    match farPara fuel old new p with
    | none => none
    | some (.error _) => some (.error ())
    | some (.ok (p', c)) =>
      match farParas fuel old new ps with
      | none => none
      | some (.error _) => some (.error ())
      | some (.ok (ps', c')) => some (.ok (p' :: ps', c + c'))

/-- Processing of the cells of one row. -/
def farRow (fuel : Nat) (old new : Text) :
    List (List Para) → Option (Except Unit (List (List Para) × Nat))
  | [] => some (.ok ([], 0))
  | cell :: cells =>
    match farParas fuel old new cell with
    | none => none
    | some (.error _) => some (.error ())
    | some (.ok (cell', c)) =>
      match farRow fuel old new cells with
      | none => none
      | some (.error _) => some (.error ())
      | some (.ok (cells', c')) => some (.ok (cell' :: cells', c + c'))

/-- Processing of the rows of one table. -/
def farTable (fuel : Nat) (old new : Text) :
    List (List (List Para)) → Option (Except Unit (List (List (List Para)) × Nat))
  | [] => some (.ok ([], 0))
  | row :: rows =>
    match farRow fuel old new row with
    | none => none
    | some (.error _) => some (.error ())
    | some (.ok (row', c)) =>
      match farTable fuel old new rows with
      | none => none
      | some (.error _) => some (.error ())
      | some (.ok (rows', c')) => some (.ok (row' :: rows', c + c'))

/-- Processing of the document's tables in order. -/
def farTables (fuel : Nat) (old new : Text) :
    List Table → Option (Except Unit (List Table × Nat))
  | [] => some (.ok ([], 0))
  | t :: ts =>
    match farTable fuel old new t.rows with
    | none => none
    | some (.error _) => some (.error ())
    | some (.ok (rows', c)) =>
      match farTables fuel old new ts with
      | none => none
      | some (.error _) => some (.error ())
      | some (.ok (ts', c')) => some (.ok (⟨rows'⟩ :: ts', c + c'))

/-- Write a processed paragraph list back into the body elements (the `n`-th
paragraph element receives the `n`-th processed paragraph). -/
def setParas : List Elem → List Para → List Elem
  | [], _ => []
  | .para p :: es, [] => .para p :: setParas es []
  | .para _ :: es, p' :: ps => .para p' :: setParas es ps
  | .table t :: es, ps => .table t :: setParas es ps

/-- Write a processed table list back into the body elements. -/
def setTables : List Elem → List Table → List Elem
  | [], _ => []
  | .table t :: es, [] => .table t :: setTables es []
  | .table _ :: es, t' :: ts => .table t' :: setTables es ts
  | .para p :: es, ts => .para p :: setTables es ts

/-- Model of `find_and_replace_text(doc, old_text, new_text)`: all body
paragraphs are processed first, then all table-cell paragraphs, and the
replacement counts are summed. -/
def find_and_replace_text (fuel : Nat) (d : Document) (old new : Text) :
    Option (Except Unit (Document × Nat)) :=
  match farParas fuel old new d.paragraphs with
  | none => none
  | some (.error _) => some (.error ())
  | some (.ok (ps', c1)) =>
    match farTables fuel old new d.tables with
    | none => none
    | some (.error _) => some (.error ())
    | some (.ok (ts', c2)) =>
      some (.ok ({ d with elements := setTables (setParas d.elements ps') ts' }, c1 + c2))

/-! ## `find_text` -/

/-- Location of one reported occurrence: a body paragraph index, or a table
position `Table {t}, Row {r}, Column {c}`. -/
inductive OccLoc
  | body (paraIdx : Nat)
  | table (t r c : Nat)
  deriving Repr, DecidableEq

/-- Per-occurrence payload: either the full paragraph text and style
(`include_paragraph_text=True`) or the truncated context (first 100
characters plus an ellipsis marker). -/
inductive OccPayload
  | full (text : Text) (style : Text)
  | ctx (context : Text)
  deriving Repr, DecidableEq

/-- One reported occurrence of `find_text`. -/
structure Occ where
  loc : OccLoc
  position : Nat
  payload : OccPayload
  deriving Repr, DecidableEq

/-- The payload attached to an occurrence found in paragraph `p`. -/
def ftPayload (includeParaText : Bool) (p : Para) : OccPayload :=
  if includeParaText then .full p.text p.styleName
  else .ctx (p.text.take 100 ++ if 100 < p.text.length then str "..." else [])

/-- The non-overlapping leftmost-first substring scan of `find_text`
(`pos = para_text.find(search_text, start_pos)`, advancing by the search
text's length).  Fuel-indexed; `text.length + 1` fuel is always sufficient
for a nonempty search text (and `find_text` rejects the empty query before
this scan can run). -/
def scanFromF : Nat → Text → Text → Nat → List Nat
  | 0, _, _, _ => []
  | fuel + 1, txt, q, start =>
    match findSub q (txt.drop start) with
    | none => []
    | some i => (start + i) :: scanFromF fuel txt q (start + i + q.length)

/-- The match positions reported for one paragraph whose case-adjusted text
is `t'`, for case-adjusted query `q'`: word indices in the whitespace-split
word list for `whole_word=True`, character offsets otherwise. -/
def ftPositions (wholeWord matchCase : Bool) (t' q' : Text) : List Nat :=
  if wholeWord then
    (((splitWs t').enum.filter fun iw =>
        iw.2 = q' || (!matchCase && lowerT iw.2 = lowerT q')).map Prod.fst)
  else scanFromF (t'.length + 1) t' q' 0

/-- Case adjustment applied by `find_text` before comparing
(`para_text.lower()` and `search_text.lower()` when `match_case` is false). -/
def caseAdj (matchCase : Bool) (t : Text) : Text :=
  if matchCase then t else lowerT t

/-- Result of `find_text`. -/
inductive FTRes
  | errNotExist
  | errEmptyQuery
  | errCaught
  | ok (occurrences : List Occ) (total : Nat)
  deriving Repr, DecidableEq

/-- Model of `find_text(doc_path, text_to_find, match_case, whole_word,
include_paragraph_text)`.  Body paragraphs are scanned first, then table
cell paragraphs; TOC-styled paragraphs are scanned like any other. -/
def find_text (fs : FileState) (q : Text)
    (matchCase wholeWord includeParaText : Bool) : FTRes :=
  match fs with
  | .missing => .errNotExist
  | .malformed => if q.isEmpty then .errEmptyQuery else .errCaught
  | .doc d =>
    if q.isEmpty then .errEmptyQuery
    else
      let q' := caseAdj matchCase q
      let bodyOccs :=
        d.paragraphs.enum.flatMap fun ip =>
          (ftPositions wholeWord matchCase (caseAdj matchCase ip.2.text) q').map
            fun pos => Occ.mk (.body ip.1) pos (ftPayload includeParaText ip.2)
      let tableOccs :=
        d.tables.enum.flatMap fun it =>
          it.2.rows.enum.flatMap fun rr =>
            rr.2.enum.flatMap fun cc =>
              cc.2.flatMap fun p =>
                (ftPositions wholeWord matchCase (caseAdj matchCase p.text) q').map
                  fun pos =>
                    Occ.mk (.table it.1 rr.1 cc.1) pos (ftPayload includeParaText p)
      let occs := bodyOccs ++ tableOccs
      .ok occs occs.length

/-! ## Results of the mutating operations

Each constructor corresponds to one `return` site of the source; the fields
carry the dynamic values interpolated into the returned message.  `raised`
models an uncaught fault escaping the operation. -/

/-- Tag naming the operation whose `except` clause produced a caught-fault
message (`"Failed to <op>: ..."`). -/
inductive CTag
  | replRange | delRange | replText | insHeader | insLine | insList
  deriving Repr, DecidableEq

/-- Result descriptor of a mutating operation. -/
inductive Res
  | okReplacedRange (removed : Nat) (s e : Nat) (n : Nat)
  | okDeletedRange (cnt : Nat) (s e : Nat)
  | okParaReplaced (i : Nat)
  | okInsHeader (title style position : Text) (anchor : Option Nat)
  | okInsLine (position : Text) (anchor : Option Nat) (style : Option Text)
  | okInsList (listType : Text) (cnt : Nat) (position : Text) (anchor : Option Nat)
  | okReplacedBelow (header : Text) (n : Nat) (style : Text) (removed : Nat)
  | okReplacedBetween (startA : Text) (endA : Option Text) (n : Nat)
      (style : Text) (removed : Nat)
  | errDocNotExist
  | errInvalidRange (s e : Int) (total : Nat)
  | errStartNeg (s : Int)
  | errEndExceeds (e : Int) (total : Nat)
  | errStartGtEnd (s e : Int)
  | errInvalidIndex (i : Int) (total : Nat)
  | errInvalidTargetIndex (i : Int) (total : Nat)
  | errHeaderNotFound (h : Text)
  | errStartAnchorNotFound (t : Text)
  | errStartAnchorNotFoundAfterDel (t : Text)
  | errTargetNotFound
  | caught (t : CTag)
  | raised
  deriving Repr, DecidableEq

/-- A returned failure message (as opposed to a success message or an
uncaught fault). -/
def Res.isFailure : Res → Bool
  | .okReplacedRange .. | .okDeletedRange .. | .okParaReplaced ..
  | .okInsHeader .. | .okInsLine .. | .okInsList ..
  | .okReplacedBelow .. | .okReplacedBetween .. => false
  | .raised => false
  | _ => true

/-! ## Element-list surgery helpers -/

/-- Remove the `i`-th paragraph element from the body
(`p.getparent().remove(p)` for `p = doc.paragraphs[i]._p`). -/
def removeParaIdx : List Elem → Nat → List Elem
  | [], _ => []
  | .para _ :: es, 0 => es
  | .para p :: es, n + 1 => .para p :: removeParaIdx es n
  | .table t :: es, n => .table t :: removeParaIdx es n

/-- The reverse-order removal loop
`for i in range(end_index, start_index - 1, -1): remove(paragraphs[i])`. -/
def removeParaRange (es : List Elem) (s e : Nat) : List Elem :=
  ((List.range' s (e + 1 - s)).reverse).foldl removeParaIdx es

/-- Insert elements immediately before (or after) the `k`-th paragraph
element of the body (`_element.addprevious` / `addnext`, chained so that the
given list order is preserved). -/
def insertElemsNearPara : List Elem → Nat → Bool → List Elem → List Elem
  | [], _, _, _ => []
  | .para p :: es, 0, before, ins =>
    if before then ins ++ .para p :: es else .para p :: (ins ++ es)
  | .para p :: es, n + 1, before, ins => .para p :: insertElemsNearPara es n before ins
  | .table t :: es, n, before, ins => .table t :: insertElemsNearPara es n before ins

/-- The runs created by `doc.add_paragraph(text, ...)`: one plain run when
the text is nonempty, no run at all for the empty string. -/
def add_paragraph_runs (t : Text) : List Run :=
  if t.isEmpty then [] else [⟨t, {}⟩]

/-- A paragraph freshly created by `doc.add_paragraph(text, style=name)`. -/
def mkPara (t : Text) (styleName : Text) : Para :=
  { style := some styleName, runs := add_paragraph_runs t }

/-! ## Markdown run parsing (`_parse_markdown_runs`) -/

/-- One run spec produced by the markdown tokenizer. -/
structure MSpec where
  text : Text
  bold : Bool
  italic : Bool
  deriving Repr, DecidableEq

/-- Find the smallest split `s = content ++ marker ++ rest` with nonempty,
newline-free content (the lazy `(.+?)` of the tokenizer's regex followed by
the closing marker); returns the length of the content. -/
def mdClose (marker s : Text) : Option Nat :=
  (List.range (s.length + 1)).find? fun i =>
    1 ≤ i && marker.isPrefixOf (s.drop i) && !(s.take i).contains '\n'

/-- Try to match one of `***x***`, `**x**`, `*x*` at the head of `s`;
alternatives are tried in the regex's order.  Returns the run spec and the
total number of characters consumed. -/
def mdTryAt (s : Text) : Option (MSpec × Nat) :=
  if (str "***").isPrefixOf s then
    match mdClose (str "***") (s.drop 3) with
    | some k => some (⟨(s.drop 3).take k, true, true⟩, 3 + k + 3)
    | none => mdTry2 s
  else mdTry2 s
where
  mdTry2 (s : Text) : Option (MSpec × Nat) :=
    if (str "**").isPrefixOf s then
      match mdClose (str "**") (s.drop 2) with
      | some k => some (⟨(s.drop 2).take k, true, false⟩, 2 + k + 2)
      | none => mdTry1 s
    else mdTry1 s
  mdTry1 (s : Text) : Option (MSpec × Nat) :=
    if (str "*").isPrefixOf s then
      match mdClose (str "*") (s.drop 1) with
      | some k => some (⟨(s.drop 1).take k, false, true⟩, 1 + k + 1)
      | none => none
    else none

/-- The left-to-right scan of `re.finditer`: emit plain text between matches
(`plainAcc` holds the pending plain characters in reverse) and one spec per
match.  Fuel-indexed to keep the definition structural; `s.length + 1` fuel
always suffices since every match consumes at least one character. -/
def mdScanF : Nat → Text → Text → List MSpec
  | 0, plainAcc, rest =>
    if plainAcc.isEmpty && rest.isEmpty then []
    else [⟨plainAcc.reverse ++ rest, false, false⟩]
  | fuel + 1, plainAcc, rest =>
    match rest with
    | [] => if plainAcc.isEmpty then [] else [⟨plainAcc.reverse, false, false⟩]
    | c :: cs =>
      match mdTryAt rest with
      | some (spec, consumed) =>
        if 0 < consumed then
          (if plainAcc.isEmpty then [] else [⟨plainAcc.reverse, false, false⟩]) ++
            spec :: mdScanF fuel [] (rest.drop consumed)
        else [⟨plainAcc.reverse ++ rest, false, false⟩]
      | none => mdScanF fuel (c :: plainAcc) cs

/-- Model of `_parse_markdown_runs`. -/
def parse_markdown_runs (t : Text) : List MSpec :=
  if t.isEmpty then [⟨[], false, false⟩]
  else
    match mdScanF (t.length + 1) [] t with
    | [] => [⟨t, false, false⟩]     -- "if no matches found" fallback
    | specs => specs

/-- The runs created for a markdown spec list
(`run.bold = True` sets the `w:b` element; unset flags leave it absent). -/
def mdRunsOf (specs : List MSpec) : List Run :=
  specs.map fun sp =>
    { text := sp.text
      props := { bold := if sp.bold then some true else none
                 italic := if sp.italic then some true else none } }

/-! ## Range mutator operations -/

/-- The style resolved by `replace_paragraph_range` for the new paragraphs:
truthy explicit `style` parameter first, then (under `preserve_style`) the
style of the paragraph at `start_index`, then `"Normal"`. -/
def rangeStyleToUse (d : Document) (s : Nat) (style : Option Text)
    (preserve_style : Bool) : Text :=
  if truthy style then style.getD []
  else if preserve_style then
    match d.paragraphs.get? s with
    | some p => p.styleName
    | none => str "Normal"
  else str "Normal"

/-- Model of `replace_paragraph_range(doc_path, start_index, end_index,
new_paragraphs, style, preserve_style)`.  The whole body runs inside
`try/except`, so a fault from the style lookup of `doc.add_paragraph`
becomes a caught-failure message with the file unchanged (the save is the
last statement of the `try` block). -/
def replace_paragraph_range (fs : FileState) (start_index end_index : Int)
    (new_paragraphs : List Text) (style : Option Text) (preserve_style : Bool) :
    Res × FileState :=
  match fs with
  | .missing => (.errDocNotExist, fs)
  | .malformed => (.caught .replRange, fs)
  | .doc d =>
    let total := d.paragraphs.length
    if start_index < 0 || end_index ≥ (total : Int) || start_index > end_index then
      (.errInvalidRange start_index end_index total, fs)
    else
      let s := start_index.toNat
      let e := end_index.toNat
      let styleToUse := rangeStyleToUse d s style preserve_style
      -- `doc.add_paragraph(text, style=style_to_use)` raises KeyError when the
      -- style name is not defined; the fault is caught before any save.
      if !new_paragraphs.isEmpty && !(d.styles.contains styleToUse) then
        (.caught .replRange, fs)
      else
        let es1 := removeParaRange d.elements s e
        let newElems := new_paragraphs.map fun t => Elem.para (mkPara t styleToUse)
        let es2 :=
          if s = 0 then newElems ++ es1
          else insertElemsNearPara es1 (s - 1) false newElems
        (.okReplacedRange (e - s + 1) s e new_paragraphs.length,
         .doc { d with elements := es2 })

/-- Model of `delete_paragraph_range(doc_path, start_index, end_index)`. -/
def delete_paragraph_range (fs : FileState) (start_index end_index : Int) :
    Res × FileState :=
  match fs with
  | .missing => (.errDocNotExist, fs)
  | .malformed => (.caught .delRange, fs)
  | .doc d =>
    let total := d.paragraphs.length
    if start_index < 0 then (.errStartNeg start_index, fs)
    else if end_index ≥ (total : Int) then (.errEndExceeds end_index total, fs)
    else if start_index > end_index then (.errStartGtEnd start_index end_index, fs)
    else
      let s := start_index.toNat
      let e := end_index.toNat
      (.okDeletedRange (e - s + 1) s e,
       .doc { d with elements := removeParaRange d.elements s e })

/-- Replace the `i`-th paragraph of the body in place. -/
def setParaAt : List Elem → Nat → Para → List Elem
  | [], _, _ => []
  | .para _ :: es, 0, p' => .para p' :: es
  | .para p :: es, n + 1, p' => .para p :: setParaAt es n p'
  | .table t :: es, n, p' => .table t :: setParaAt es n p'

/-- Model of `replace_paragraph_text(doc_path, paragraph_index, new_text,
preserve_style, parse_markdown)`: all runs are cleared, a single plain run
(or the parsed markdown runs) is added, and the style is preserved or reset
to `Normal`. -/
def replace_paragraph_text (fs : FileState) (paragraph_index : Int)
    (new_text : Text) (preserve_style parse_markdown : Bool) : Res × FileState :=
  match fs with
  | .missing => (.errDocNotExist, fs)
  | .malformed => (.caught .replText, fs)
  | .doc d =>
    let total := d.paragraphs.length
    if paragraph_index < 0 || paragraph_index ≥ (total : Int) then
      (.errInvalidIndex paragraph_index total, fs)
    else
      let i := paragraph_index.toNat
      match d.paragraphs.get? i with
      | none => (.caught .replText, fs)
      | some para =>
        let newRuns :=
          if parse_markdown then mdRunsOf (parse_markdown_runs new_text)
          else [⟨new_text, {}⟩]      -- para.add_run(new_text): one run, even when empty
        let styledPara : Option Para :=
          if preserve_style then
            some { para with runs := newRuns }          -- old style kept (or None stays None)
          else if d.styles.contains (str "Normal") then
            some { para with runs := newRuns, style := some (str "Normal") }
          else none                                     -- doc.styles["Normal"] raises; caught
        match styledPara with
        | none => (.caught .replText, fs)
        | some p' =>
          (.okParaReplaced i, .doc { d with elements := setParaAt d.elements i p' })

/-! ## Insert operations -/

/-- The target-paragraph search shared by the insert operations: scan body
paragraphs in order, skipping paragraphs whose style name lower-cases to a
`toc` prefix, and return the first whose text contains the (truthy) target
text. -/
def findTargetIdx (d : Document) (target_text : Option Text) : Option Nat :=
  firstIdx
    (fun p =>
      !(match p.style with
        | some st => (str "toc").isPrefixOf (lowerT st)
        | none => false) &&
      (match target_text with
       | some t => !t.isEmpty && containsT p.text t
       | none => false))
    d.paragraphs

/-- Resolve the insert target: an explicit paragraph index (bounds-checked)
takes precedence over the text search. -/
def resolveInsTarget (d : Document) (target_text : Option Text)
    (target_paragraph_index : Option Int) : Except Res Nat :=
  match target_paragraph_index with
  | some i =>
    if i < 0 || i ≥ (d.paragraphs.length : Int) then
      .error (.errInvalidTargetIndex i d.paragraphs.length)
    else .ok i.toNat
  | none =>
    match findTargetIdx d target_text with
    | none => .error .errTargetNotFound
    | some i => .ok i

/-- Model of `insert_header_near_text`. -/
def insert_header_near_text (fs : FileState) (target_text : Option Text)
    (header_title : Text) (position : Text) (header_style : Text)
    (target_paragraph_index : Option Int) : Res × FileState :=
  match fs with
  | .missing => (.errDocNotExist, fs)
  | .malformed => (.caught .insHeader, fs)
  | .doc d =>
    match resolveInsTarget d target_text target_paragraph_index with
    | .error r => (r, fs)
    | .ok anchor =>
      if !(d.styles.contains header_style) then (.caught .insHeader, fs)
      else
        let newPara := mkPara header_title header_style
        let es := insertElemsNearPara d.elements anchor (position = str "before")
          [.para newPara]
        (.okInsHeader header_title header_style position (some anchor),
         .doc { d with elements := es })

/-- Model of `_copy_run_formatting(source_run, target_run)`. -/
def copy_run_formatting (src tgt : RunProps) : RunProps :=
  { tgt with
    bold := src.bold, italic := src.italic, underline := src.underline,
    fontName := if src.fontName.isSome then src.fontName else tgt.fontName,
    size := if src.size.isSome then src.size else tgt.size,
    color := if src.color.isSome then src.color else tgt.color }

/-- Model of `insert_line_or_paragraph_near_text`. -/
def insert_line_or_paragraph_near_text (fs : FileState)
    (target_text : Option Text) (line_text : Text) (position : Text)
    (line_style : Option Text) (target_paragraph_index : Option Int)
    (copy_style_from_index : Option Int) : Res × FileState :=
  match fs with
  | .missing => (.errDocNotExist, fs)
  | .malformed => (.caught .insLine, fs)
  | .doc d =>
    match resolveInsTarget d target_text target_paragraph_index with
    | .error r => (r, fs)
    | .ok anchor =>
      match d.paragraphs.get? anchor with
      | none => (.caught .insLine, fs)
      | some target =>
        -- style = line_style if line_style else para.style
        let styleRes : Except Unit (Option Text) :=
          if truthy line_style then
            if d.styles.contains (line_style.getD []) then .ok (some (line_style.getD []))
            else .error ()           -- doc.add_paragraph style lookup raises; caught
          else .ok target.style
        match styleRes with
        | .error _ => (.caught .insLine, fs)
        | .ok newStyle =>
          let baseRuns := add_paragraph_runs line_text
          -- copy first-run formatting; the new paragraph is appended to the
          -- body before the bounds check, so the length includes it
          let parasWithNew := d.paragraphs ++ [{ style := newStyle, runs := baseRuns : Para }]
          let finalRuns :=
            match copy_style_from_index with
            | some ci =>
              if 0 ≤ ci && ci < (parasWithNew.length : Int) then
                match parasWithNew.get? ci.toNat with
                | some src =>
                  match src.runs, baseRuns with
                  | srcRun :: _, tgtRun :: rest =>
                    { tgtRun with props := copy_run_formatting srcRun.props tgtRun.props } :: rest
                  | _, _ => baseRuns
                | none => baseRuns
              else baseRuns
            | none => baseRuns
          let newPara : Para := { style := newStyle, runs := finalRuns }
          let es := insertElemsNearPara d.elements anchor (position = str "before")
            [.para newPara]
          (.okInsLine position (some anchor) newStyle,
           .doc { d with elements := es })

/-- Model of `insert_numbered_list_near_text`. -/
def insert_numbered_list_near_text (fs : FileState) (target_text : Option Text)
    (list_items : List Text) (position : Text)
    (target_paragraph_index : Option Int) (bullet_type : Text) : Res × FileState :=
  match fs with
  | .missing => (.errDocNotExist, fs)
  | .malformed => (.caught .insList, fs)
  | .doc d =>
    match resolveInsTarget d target_text target_paragraph_index with
    | .error r => (r, fs)
    | .ok anchor =>
      let numId := if bullet_type = str "bullet" then 1 else 2
      let styleName : Option Text :=
        if d.styles.contains (str "List Paragraph") then some (str "List Paragraph")
        else if d.styles.contains (str "ListParagraph") then some (str "ListParagraph")
        else if d.styles.contains (str "Normal") then some (str "Normal")
        else none
      let newParas := list_items.map fun item =>
        { style := styleName, runs := add_paragraph_runs item,
          numPr := some (numId, 0) : Para }
      -- the reversed `addprevious` loop inserts the items in reversed order
      -- before the target; the reversed `addnext` loop preserves the order
      let before := position = str "before"
      let ins := (if before then newParas.reverse else newParas).map Elem.para
      let es := insertElemsNearPara d.elements anchor before ins
      let listType := if bullet_type = str "bullet" then str "bulleted" else str "numbered"
      (.okInsList listType newParas.length position (some anchor),
       .doc { d with elements := es })

/-! ## Header resolution and the replace composites -/

/-- The exact-pass predicate of `replace_paragraph_block_below_header`'s
header search: skip TOC paragraphs, compare normalized lower-cased texts. -/
def exactBelowPred (nq : Text) (p : Para) : Bool :=
  !is_toc_paragraph p && (lowerT (normalize_text p.text) = nq)

/-- The contains-pass predicate of `replace_paragraph_block_below_header`'s
header search: skip TOC paragraphs, require a heading style, substring
match on normalized lower-cased texts. -/
def containsBelowPred (nq : Text) (p : Para) : Bool :=
  !is_toc_paragraph p && is_heading_paragraph p &&
    containsT (lowerT (normalize_text p.text)) nq

/-- The two-pass header resolution of `replace_paragraph_block_below_header`:
pass 1 is an exact match on the normalized lower-cased text (skipping TOC
paragraphs), pass 2 a contains match restricted to heading-styled paragraphs
(skipping TOC paragraphs). -/
def findHeaderIdxBelow (paras : List Para) (header_text : Text) : Option Nat :=
  let nq := lowerT (normalize_text header_text)
  match firstIdx (exactBelowPred nq) paras with
  | some i => some i
  | none => firstIdx (containsBelowPred nq) paras

/-- The two-pass header resolution of `delete_block_under_header`: unlike the
outer resolution, pass 1 does not skip TOC paragraphs. -/
def findHeaderIdxDel (paras : List Para) (header_text : Text) : Option Nat :=
  let nq := lowerT (normalize_text header_text)
  match firstIdx (fun p => lowerT (normalize_text p.text) = nq) paras with
  | some i => some i
  | none =>
    firstIdx
      (fun p => is_heading_paragraph p && containsT (lowerT (normalize_text p.text)) nq)
      paras

/-- The block-end test of `delete_block_under_header`:
`para.style.name.lower().startswith(('heading', 'título', 'toc'))`. -/
def isBlockBoundary (p : Para) : Bool :=
  match p.style with
  | none => false
  | some st =>
    (str "heading").isPrefixOf (lowerT st) ||
    (str "título").isPrefixOf (lowerT st) ||
    (str "toc").isPrefixOf (lowerT st)

/-- Model of `delete_block_under_header(doc, header_text)`.  Returns the
resolved header index (`none` when unresolved, in which case nothing is
removed), the mutated document, and the removed-count.  The removal loop is
embedded exactly as written: for each `i` in `range(header_idx + 1,
end_idx)` it re-checks `i < len(doc.paragraphs)` against the *shrinking*
paragraph list and, when the check passes, removes the paragraph at
`header_idx + 1`. -/
def delete_block_under_header (d : Document) (header_text : Text) :
    Option Nat × Document × Nat :=
  match findHeaderIdxDel d.paragraphs header_text with
  | none => (none, d, 0)
  | some h =>
    let endIdx :=
      match firstIdx isBlockBoundary (d.paragraphs.drop (h + 1)) with
      | some j => h + 1 + j
      | none => d.paragraphs.length
    let step : Document × Nat → Nat → Document × Nat := fun acc i =>
      if i < acc.1.paragraphs.length then
        ({ acc.1 with elements := removeParaIdx acc.1.elements (h + 1) }, acc.2 + 1)
      else acc
    let dr := (List.range' (h + 1) (endIdx - (h + 1))).foldl step (d, 0)
    (some h, dr.1, dr.2)

/-- Python `x or "Normal"` applied to the optional style parameter of the
replace composites. -/
def styleOrNormal : Option Text → Text
  | none => str "Normal"
  | some s => if s.isEmpty then str "Normal" else s

/-- Model of `replace_paragraph_block_below_header(doc_path, header_text,
new_paragraphs, detect_block_end_fn, new_paragraph_style)`.  The function
body is not wrapped in `try/except`: opening a malformed file or looking up
an undefined style raises to the caller (`Res.raised`); since the single
`doc.save` is only reached on full success, the file is unchanged in those
cases. -/
def replace_paragraph_block_below_header (fs : FileState) (header_text : Text)
    (new_paragraphs : List Text) (new_paragraph_style : Option Text) :
    Res × FileState :=
  match fs with
  | .missing => (.errDocNotExist, fs)
  | .malformed => (.raised, fs)
  | .doc d =>
    match findHeaderIdxBelow d.paragraphs header_text with
    | none => (.errHeaderNotFound header_text, fs)
    | some h =>
      let (innerH, d1, removed) := delete_block_under_header d header_text
      -- position of the outer header paragraph inside the shrunk document:
      -- the inner loop removes the contiguous paragraph indices
      -- innerH+1 .. innerH+removed; if the outer header fell in that range,
      -- the subsequent `addnext` on the detached element raises
      let survivor : Option Nat :=
        match innerH with
        | none => some h
        | some h' =>
          if h ≤ h' then some h
          else if h' + removed < h then some (h - removed)
          else none
      match survivor with
      | none =>
        -- with no paragraphs to insert the detached element is never
        -- touched and the shrunk document is saved; otherwise the first
        -- `addnext` on the detached element raises before the save
        if new_paragraphs.isEmpty then
          (.okReplacedBelow header_text 0 (styleOrNormal new_paragraph_style) removed,
           .doc d1)
        else (.raised, fs)
      | some hPos =>
        let styleToUse := styleOrNormal new_paragraph_style
        if !new_paragraphs.isEmpty && !(d1.styles.contains styleToUse) then
          (.raised, fs)
        else
          let es := insertElemsNearPara d1.elements hPos false
            (new_paragraphs.map fun t => Elem.para (mkPara t styleToUse))
          (.okReplacedBelow header_text new_paragraphs.length styleToUse removed,
           .doc { d1 with elements := es })

/-- The paragraph text computed at the XML level by
`replace_block_between_manual_anchors` (join of the `w:t` descendants,
stripped). -/
def elementText (p : Para) : Text := stripT p.text

/-- The `match_fn` parameter of `replace_block_between_manual_anchors`:
called as `match_fn(p_text, el)` for the start anchor and
`match_fn(p_text, el, is_end=True)` for the end anchor. -/
abbrev MatchFn := Text → Para → Bool → Bool

/-- Does a paragraph look "visually distinct" to the end-boundary heuristic
(any run whose `rPr` carries a `w:b`, `w:caps` or `w:sz` element)? -/
def visuallyDistinct (p : Para) : Bool :=
  p.runs.any fun r => r.props.bold.isSome || r.props.caps.isSome || r.props.size.isSome

/-- Start-anchor search of `replace_block_between_manual_anchors`: pass 1
scans the body elements for a paragraph matched by `match_fn` (or by exact
normalized text equality); pass 2 (only without `match_fn`) is the contains
fallback. -/
def rbFindStart (elements : List Elem) (start_anchor_text : Text)
    (match_fn : Option MatchFn) : Option Nat :=
  let start1 := firstIdx
    (fun (el : Elem) =>
      match el with
      | .para p =>
        match match_fn with
        | some f => f (elementText p) p false
        | none => normalize_text (elementText p) = normalize_text start_anchor_text
      | .table _ => false)
    elements
  match start1 with
  | some i => some i
  | none =>
    match match_fn with
    | some _ => none
    | none =>
      firstIdx
        (fun (el : Elem) =>
          match el with
          | .para p =>
            containsT (normalize_text (elementText p)) (normalize_text start_anchor_text)
          | .table _ => false)
        elements

/-- End-boundary search of `replace_block_between_manual_anchors`, over the
elements after the start anchor: a truthy end anchor is resolved by the
two-pass scheme (with the contains fallback skipped under `match_fn`);
otherwise the first "visually distinct" paragraph ends the block. -/
def rbFindEnd (elements : List Elem) (si : Nat) (end_anchor_text : Option Text)
    (match_fn : Option MatchFn) : Option Nat :=
  let rest := elements.drop (si + 1)
  if truthy end_anchor_text then
    let ea := end_anchor_text.getD []
    let e1 := firstIdx
      (fun (el : Elem) =>
        match el with
        | .para p =>
          match match_fn with
          | some f => f (elementText p) p true
          | none => normalize_text (elementText p) = normalize_text ea
        | .table _ => false)
      rest
    match e1 with
    | some j => some (si + 1 + j)
    | none =>
      match match_fn with
      | some _ => none
      | none =>
        (firstIdx
          (fun (el : Elem) =>
            match el with
            | .para p => containsT (normalize_text (elementText p)) (normalize_text ea)
            | .table _ => false)
          rest).map (si + 1 + ·)
  else
    (firstIdx
      (fun (el : Elem) =>
        match el with
        | .para p => visuallyDistinct p
        | .table _ => false)
      rest).map (si + 1 + ·)

/-- The re-resolution of the start anchor performed after the deletion has
been saved and the document reloaded: exact normalized match on
`para.text`, then a contains fallback. -/
def rbRefind (paras : List Para) (start_anchor_text : Text) : Option Nat :=
  match firstIdx
      (fun p => normalize_text p.text = normalize_text start_anchor_text) paras with
  | some i => some i
  | none =>
    firstIdx
      (fun p => containsT (normalize_text p.text) (normalize_text start_anchor_text))
      paras

/-- Model of `replace_block_between_manual_anchors(doc_path,
start_anchor_text, new_paragraphs, end_anchor_text, match_fn,
new_paragraph_style)`.  Not wrapped in `try/except`.  Note the control flow
around the save: the span between the anchors is removed and the document is
*saved*; only then is the document reloaded and the start anchor re-resolved
for the insertion, so the failure result `errStartAnchorNotFoundAfterDel`
leaves the deletion persisted. -/
def replace_block_between_manual_anchors (fs : FileState)
    (start_anchor_text : Text) (new_paragraphs : List Text)
    (end_anchor_text : Option Text) (match_fn : Option MatchFn)
    (new_paragraph_style : Option Text) : Res × FileState :=
  match fs with
  | .missing => (.errDocNotExist, fs)
  | .malformed => (.raised, fs)
  | .doc d =>
    match rbFindStart d.elements start_anchor_text match_fn with
    | none => (.errStartAnchorNotFound start_anchor_text, fs)
    | some si =>
      let stop := (rbFindEnd d.elements si end_anchor_text match_fn).getD
        d.elements.length
      let removedCnt := stop - (si + 1)
      let d1 : Document :=
        { d with elements := d.elements.take (si + 1) ++ d.elements.drop stop }
      -- doc.save(doc_path): the deletion is persisted here, then the document
      -- is reloaded and the start anchor re-resolved for the insertion
      match rbRefind d1.paragraphs start_anchor_text with
      | none => (.errStartAnchorNotFoundAfterDel start_anchor_text, .doc d1)
      | some ai =>
        let styleToUse := styleOrNormal new_paragraph_style
        if !new_paragraphs.isEmpty && !(d1.styles.contains styleToUse) then
          (.raised, .doc d1)
        else
          let es2 := insertElemsNearPara d1.elements ai false
            (new_paragraphs.map fun t => Elem.para (mkPara t styleToUse))
          (.okReplacedBetween start_anchor_text end_anchor_text
             new_paragraphs.length styleToUse removedCnt,
           .doc { d1 with elements := es2 })

/-! ## `get_section_paragraphs` -/

/-- Heading-style test used by `extended_document_utils`
(`para.style.name.startswith("Heading")`, case-sensitive). -/
def isHeadingStyled (p : Para) : Bool :=
  match p.style with
  | none => false
  | some st => (str "Heading").isPrefixOf st

/-- The exact-pass predicate of `get_section_paragraphs`' heading search:
heading-styled paragraphs whose normalized text equals the normalized
query. -/
def exactSectionPred (nq : Text) (p : Para) : Bool :=
  isHeadingStyled p && (normalize_text p.text = nq)

/-- The contains-pass predicate of `get_section_paragraphs`' heading search:
heading-styled paragraphs whose normalized text contains the normalized
query. -/
def containsSectionPred (nq : Text) (p : Para) : Bool :=
  isHeadingStyled p && containsT (normalize_text p.text) nq

/-- The two-pass heading resolution of `get_section_paragraphs`: both passes
consider only heading-styled paragraphs; pass 1 is exact on the normalized
text, pass 2 a substring match. -/
def findHeadingIdxSection (paras : List Para) (heading_text : Text) : Option Nat :=
  let nq := normalize_text heading_text
  match firstIdx (exactSectionPred nq) paras with
  | some i => some i
  | none => firstIdx (containsSectionPred nq) paras

/-- Split on a single separator character, keeping empty fields
(Python `str.split(" ")` with an explicit separator). -/
def splitOn (sep : Char) : Text → List Text
  | [] => [[]]
  | c :: cs =>
    if c = sep then [] :: splitOn sep cs
    else
      match splitOn sep cs with
      | [] => [[c]]
      | w :: ws => (c :: w) :: ws

/-- Python `int(...)` on the tokens produced by heading-style names: a
nonempty all-digit token parses, anything else raises `ValueError`
(rendered as `none`). -/
def parseNatDigits (t : Text) : Option Nat :=
  if t.isEmpty || !t.all Char.isDigit then none
  else some (t.foldl (fun n c => n * 10 + (c.toNat - '0'.toNat)) 0)

/-- The heading-level extraction `int(style_name.split(" ")[1])` with
fallback `fb` on `ValueError`/`IndexError`. -/
def headingLevelOf (st : Text) (fb : Nat) : Nat :=
  match (splitOn ' ' st).get? 1 with
  | none => fb
  | some tok => (parseNatDigits tok).getD fb

/-- One paragraph record returned by `get_section_paragraphs`. -/
structure PRec where
  idx : Nat
  text : Text
  style : Text
  isHeading : Bool
  deriving Repr, DecidableEq

/-- The success record of `get_section_paragraphs`. -/
structure GSRecord where
  headingIdx : Nat
  headingText : Text
  headingStyle : Text
  headingLevel : Nat
  contentStartIdx : Option Nat
  contentEndIdx : Option Nat
  nextHeadingIdx : Option Nat
  paragraphs : List PRec
  deriving Repr, DecidableEq

/-- Result of `get_section_paragraphs`. -/
inductive GSRes
  | errNotExist
  | errCaught
  | errHeadingNotFound (h : Text)
  | ok (r : GSRecord)
  deriving Repr, DecidableEq

/-- Model of `get_section_paragraphs(doc_path, heading_text,
include_heading)`. -/
def get_section_paragraphs (fs : FileState) (heading_text : Text)
    (include_heading : Bool) : GSRes :=
  match fs with
  | .missing => .errNotExist
  | .malformed => .errCaught
  | .doc d =>
    let paras := d.paragraphs
    match findHeadingIdxSection paras heading_text with
    | none => .errHeadingNotFound heading_text
    | some h =>
      let headingPara := (paras.get? h).getD {}
      let headingStyle :=
        match headingPara.style with
        | some st => st
        | none => str "Heading 1"
      let hLevel := headingLevelOf headingStyle 1
      let nextH :=
        (firstIdx
          (fun p =>
            isHeadingStyled p && headingLevelOf (p.style.getD []) 1 ≤ hLevel)
          (paras.drop (h + 1))).map (h + 1 + ·)
      let contentEnd :=
        match nextH with
        | none => paras.length - 1
        | some n => n - 1
      let startI := if include_heading then h else h + 1
      let recs := (List.range' startI (contentEnd + 1 - startI)).map fun i =>
        let p := (paras.get? i).getD {}
        PRec.mk i p.text p.styleName (isHeadingStyled p)
      .ok
        { headingIdx := h
          headingText := headingPara.text
          headingStyle := headingStyle
          headingLevel := hLevel
          contentStartIdx := if h + 1 ≤ contentEnd then some (h + 1) else none
          contentEndIdx := if h < contentEnd then some contentEnd else none
          nextHeadingIdx := nextH
          paragraphs := recs }

/-- A returned result modelling an uncaught fault (as opposed to a returned
success or failure message). -/
def Res.isRaised : Res → Bool
  | .raised => true
  | _ => false

/-! ## Concrete instances the claim theorems evaluate on -/

/-- Runs of the C9 witness paragraph: `["Hel", "lo world"]`, the first run
bold. -/
def C9wRuns : List Run := [⟨str "Hel", { bold := some true }⟩, ⟨str "lo world", {}⟩]

/-- The C9 witness paragraph. -/
def C9wPara : Para := { style := none, runs := C9wRuns, numPr := none }

/-- A heading followed by three body paragraphs and no further
heading/TOC-styled paragraph. -/
def C3doc : Document :=
  { elements := [.para (mkPara (str "Section One") (str "Heading 1")),
                 .para (mkPara (str "alpha") (str "Normal")),
                 .para (mkPara (str "beta") (str "Normal")),
                 .para (mkPara (str "gamma") (str "Normal"))],
    styles := [str "Normal", str "Heading 1"] }

/-- A match function for `replace_block_between_manual_anchors` selecting the
start anchor by its paragraph style rather than its text. -/
def C1mf : MatchFn := fun _ p _ => p.style = some (str "AnchorStyle")

/-- Two paragraphs; the first is the style-matched anchor, whose text is
unrelated to the anchor text passed to the operation. -/
def C1doc : Document :=
  { elements := [.para { style := some (str "AnchorStyle"),
                         runs := [⟨str "Hello", {}⟩], numPr := none },
                 .para (mkPara (str "World") (str "Normal"))],
    styles := [str "Normal", str "AnchorStyle"] }

/-- A TOC-styled paragraph whose text contains the C4 search query. -/
def C4tocPara : Para :=
  { style := some (str "TOC 1"), runs := [⟨str "hello world", {}⟩], numPr := none }

/-- A document whose first paragraph is TOC-styled with matching text,
followed by one content paragraph. -/
def C4tocDoc : Document :=
  { elements := [.para C4tocPara, .para (mkPara (str "content") (str "Normal"))],
    styles := [str "Normal"] }

/-- One paragraph whose occurrence of "cat" is directly attached to
punctuation. -/
def C10doc : Document :=
  { elements := [.para { style := none, runs := [⟨str "The cat, sat", {}⟩],
                         numPr := none }],
    styles := [str "Normal"] }

/-- One paragraph containing "cat" as a clean whitespace-delimited word. -/
def C10doc2 : Document :=
  { elements := [.para { style := none, runs := [⟨str "The cat sat", {}⟩],
                         numPr := none }],
    styles := [str "Normal"] }

/-! ## General list helpers -/

theorem take_append_le {l₁ l₂ : List α} {n : Nat} (h : n ≤ l₁.length) :
    (l₁ ++ l₂).take n = l₁.take n := by
  induction l₁ generalizing n with
  | nil => cases n with
    | zero => simp
    | succ m => simp at h
  | cons a t ih =>
    cases n with
    | zero => simp
    | succ m => simp only [List.cons_append, List.take_succ_cons, List.length_cons] at *
                rw [ih (Nat.le_of_succ_le_succ h)]

theorem drop_append_le {l₁ l₂ : List α} {n : Nat} (h : n ≤ l₁.length) :
    (l₁ ++ l₂).drop n = l₁.drop n ++ l₂ := by
  induction l₁ generalizing n with
  | nil => cases n with
    | zero => simp
    | succ m => simp at h
  | cons a t ih =>
    cases n with
    | zero => simp
    | succ m => simp only [List.cons_append, List.drop_succ_cons, List.length_cons] at *
                exact ih (Nat.le_of_succ_le_succ h)

theorem take_append_ge {l₁ l₂ : List α} {n : Nat} (h : l₁.length ≤ n) :
    (l₁ ++ l₂).take n = l₁ ++ l₂.take (n - l₁.length) := by
  induction l₁ generalizing n with
  | nil => simp
  | cons a t ih =>
    cases n with
    | zero => simp at h
    | succ m => simp only [List.cons_append, List.take_succ_cons, List.length_cons] at *
                rw [ih (Nat.le_of_succ_le_succ h)]
                simp [Nat.succ_sub_succ]

theorem drop_append_ge {l₁ l₂ : List α} {n : Nat} (h : l₁.length ≤ n) :
    (l₁ ++ l₂).drop n = l₂.drop (n - l₁.length) := by
  induction l₁ generalizing n with
  | nil => simp
  | cons a t ih =>
    cases n with
    | zero => simp at h
    | succ m => simp only [List.cons_append, List.drop_succ_cons, List.length_cons] at *
                rw [ih (Nat.le_of_succ_le_succ h)]
                simp [Nat.succ_sub_succ]

/-! ## `firstIdx` characterization -/

theorem firstIdx_eq_none {p : α → Bool} :
    ∀ {l : List α}, firstIdx p l = none ↔ ∀ a ∈ l, p a = false := by
  intro l
  induction l with
  | nil => simp [firstIdx]
  | cons a t ih =>
    cases hpa : p a with
    | true =>
      simp only [firstIdx, hpa, if_true]
      constructor
      · intro h
        cases h
      · intro h
        have h2 := h a (by simp)
        rw [hpa] at h2
        cases h2
    | false =>
      simp only [firstIdx, hpa, Bool.false_eq_true, if_false, Option.map_eq_none',
        List.mem_cons]
      constructor
      · intro h b hb
        rcases hb with rfl | hb
        · exact hpa
        · exact ih.mp h b hb
      · intro h
        exact ih.mpr fun b hb => h b (Or.inr hb)

theorem firstIdx_eq_some {p : α → Bool} :
    ∀ {l : List α} {i : Nat}, firstIdx p l = some i ↔
      (∃ a, l[i]? = some a ∧ p a = true) ∧
        ∀ j, j < i → ∀ a, l[j]? = some a → p a = false := by
  intro l
  induction l with
  | nil => intro i; simp [firstIdx]
  | cons a t ih =>
    intro i
    cases hpa : p a with
    | true =>
      simp only [firstIdx, hpa, if_true]
      constructor
      · rintro h
        injection h with h
        subst h
        exact ⟨⟨a, by simp, hpa⟩, fun j hj => by omega⟩
      · rintro ⟨⟨b, hb, hpb⟩, hmin⟩
        cases i with
        | zero => rfl
        | succ k =>
          have := hmin 0 (Nat.succ_pos k) a (by simp)
          rw [hpa] at this
          cases this
    | false =>
      simp only [firstIdx, hpa, Bool.false_eq_true, if_false]
      cases i with
      | zero =>
        simp only [Option.map_eq_some']
        constructor
        · rintro ⟨j, _, hj⟩; omega
        · rintro ⟨⟨b, hb, hpb⟩, _⟩
          simp only [List.getElem?_cons_zero, Option.some.injEq] at hb
          subst hb
          rw [hpb] at hpa
          cases hpa
      | succ k =>
        simp only [Option.map_eq_some']
        constructor
        · rintro ⟨j, hj, hjk⟩
          have hk : j = k := by omega
          subst hk
          rcases (ih.mp hj) with ⟨⟨b, hb, hpb⟩, hmin⟩
          refine ⟨⟨b, by simpa using hb, hpb⟩, ?_⟩
          intro j hjlt c hc
          cases j with
          | zero =>
            simp only [List.getElem?_cons_zero, Option.some.injEq] at hc
            subst hc
            exact hpa
          | succ m =>
            simp only [List.getElem?_cons_succ] at hc
            exact hmin m (by omega) c hc
        · rintro ⟨⟨b, hb, hpb⟩, hmin⟩
          refine ⟨k, ih.mpr ⟨⟨b, by simpa using hb, hpb⟩, ?_⟩, rfl⟩
          intro j hjlt c hc
          exact hmin (j + 1) (by omega) c (by simpa using hc)

/-! ## `findSub` and `containsT` -/

theorem findSub_some : ∀ {hay : Text} {pat : Text} {i : Nat},
    findSub pat hay = some i →
      pat.isPrefixOf (hay.drop i) = true ∧ i + pat.length ≤ hay.length := by
  intro hay
  induction hay with
  | nil =>
    intro pat i h
    simp only [findSub] at h
    by_cases hp : pat.isPrefixOf ([] : Text)
    · simp only [hp, if_true, Option.some.injEq] at h
      subst h
      have hpat : pat = [] := by
        have hpre := List.isPrefixOf_iff_prefix.mp hp
        simpa using hpre.length_le
      subst hpat
      simp
    · simp [hp] at h
  | cons c t ih =>
    intro pat i h
    by_cases hp : pat.isPrefixOf (c :: t)
    · simp only [findSub, hp, if_true, Option.some.injEq] at h
      subst h
      exact ⟨by simpa using hp, by
        have := (List.isPrefixOf_iff_prefix.mp hp).length_le
        simpa using this⟩
    · cases hfs : findSub pat t with
      | none => simp [findSub, hp, hfs] at h
      | some j =>
        simp only [findSub, hp, Bool.false_eq_true, if_false, hfs, Option.map_some',
          Option.some.injEq] at h
        subst h
        rcases ih hfs with ⟨h1, h2⟩
        exact ⟨by simpa using h1, by simp only [List.length_cons]; omega⟩

theorem findSub_decomp {pat hay : Text} {i : Nat} (h : findSub pat hay = some i) :
    hay = hay.take i ++ pat ++ hay.drop (i + pat.length) := by
  rcases findSub_some h with ⟨h1, _⟩
  rcases List.isPrefixOf_iff_prefix.mp h1 with ⟨tail, htail⟩
  have hdrop : hay.drop i = pat ++ tail := htail.symm
  have htail2 : tail = hay.drop (i + pat.length) := by
    have : (hay.drop i).drop pat.length = tail := by
      rw [hdrop]
      exact List.drop_left pat tail
    rw [← this, List.drop_drop]
  conv_lhs => rw [← List.take_append_drop i hay]
  rw [hdrop, htail2, List.append_assoc]

theorem containsT_true {hay pat : Text} (h : containsT hay pat = true) :
    ∃ i, findSub pat hay = some i := by
  unfold containsT at h
  exact Option.isSome_iff_exists.mp h

/-! ## Run text and the character map -/

/-- Concatenated text of a run list (`Para.text` is this applied to the
paragraph's runs). -/
def runsText (rs : List Run) : Text := (rs.map Run.text).flatten

@[simp] theorem runsText_nil : runsText [] = [] := rfl

@[simp] theorem runsText_cons (r : Run) (rs : List Run) :
    runsText (r :: rs) = r.text ++ runsText rs := by
  simp [runsText]

@[simp] theorem runsText_append (l₁ l₂ : List Run) :
    runsText (l₁ ++ l₂) = runsText l₁ ++ runsText l₂ := by
  simp [runsText]

theorem para_text_eq_runsText (p : Para) : p.text = runsText p.runs := rfl

theorem charMapFrom_length (k : Nat) (rs : List Run) :
    (charMapFrom k rs).length = (runsText rs).length := by
  induction rs generalizing k with
  | nil => rfl
  | cons r t ih => simp [charMapFrom, ih]

theorem charMapFrom_succ (k : Nat) (rs : List Run) :
    charMapFrom (k + 1) rs = (charMapFrom k rs).map fun q => (q.1 + 1, q.2) := by
  induction rs generalizing k with
  | nil => rfl
  | cons r t ih =>
    simp only [charMapFrom, List.map_append, List.map_map, ih (k + 1)]
    rfl

theorem charMap_length (rs : List Run) : (charMap rs).length = (runsText rs).length :=
  charMapFrom_length 0 rs

theorem charMap_get : ∀ {rs : List Run} {s ri ci : Nat},
    (charMap rs)[s]? = some (ri, ci) →
    ∃ r, rs[ri]? = some r ∧ ci < r.text.length ∧
      (runsText rs).take s = runsText (rs.take ri) ++ r.text.take ci ∧
      (runsText rs).drop (s + 1) =
        r.text.drop (ci + 1) ++ runsText (rs.drop (ri + 1)) := by
  intro rs
  induction rs with
  | nil => intro s ri ci h; simp [charMap, charMapFrom] at h
  | cons r t ih =>
    intro s ri ci h
    have hcm : charMap (r :: t) =
        ((List.range r.text.length).map fun ci => (0, ci)) ++
          ((charMap t).map fun q => (q.1 + 1, q.2)) := by
      show charMapFrom 0 (r :: t) = _
      rw [charMapFrom, charMapFrom_succ 0 t]
      rfl
    rw [hcm] at h
    have hlen1 : ((List.range r.text.length).map fun ci => ((0 : Nat), ci)).length
        = r.text.length := by simp
    by_cases hs : s < r.text.length
    · rw [List.getElem?_append_left (by omega)] at h
      simp only [List.getElem?_map, List.getElem?_range hs, Option.map_some',
        Option.some.injEq, Prod.mk.injEq] at h
      rcases h with ⟨hri, hci⟩
      subst hri; subst hci
      refine ⟨r, by simp, hs, ?_, ?_⟩
      · rw [runsText_cons, take_append_le (by omega)]
        simp
      · rw [runsText_cons, drop_append_le (by omega)]
        simp
    · push_neg at hs
      rw [List.getElem?_append_right (by omega)] at h
      rw [hlen1] at h
      simp only [List.getElem?_map] at h
      rcases hq : (charMap t)[s - r.text.length]? with _ | ⟨ri', ci'⟩
      · rw [hq] at h; simp at h
      · rw [hq] at h
        simp only [Option.map_some', Option.some.injEq, Prod.mk.injEq] at h
        rcases h with ⟨hri, hci⟩
        subst hci
        rcases ih hq with ⟨r', hget, hci', htake, hdrop⟩
        refine ⟨r', ?_, hci', ?_, ?_⟩
        · rw [← hri]; simpa using hget
        · rw [← hri]
          rw [runsText_cons, take_append_ge (by omega)]
          have : (ri' + 1 : Nat) = ri' + 1 := rfl
          simp only [List.take_succ_cons, runsText_cons, htake, List.append_assoc]
        · rw [← hri]
          rw [runsText_cons, drop_append_ge (by omega)]
          have harith : s + 1 - r.text.length = (s - r.text.length) + 1 := by omega
          rw [harith, hdrop]
          simp

/-! ## `mapWithIdx` -/

theorem mapWithIdx_length (f : Nat → Run → Run) :
    ∀ (k : Nat) (l : List Run), (mapWithIdx f k l).length = l.length := by
  intro k l
  induction l generalizing k with
  | nil => rfl
  | cons r t ih => simp [mapWithIdx, ih]

theorem mapWithIdx_append (f : Nat → Run → Run) :
    ∀ (l₁ : List Run) (k : Nat) (l₂ : List Run),
      mapWithIdx f k (l₁ ++ l₂) = mapWithIdx f k l₁ ++ mapWithIdx f (k + l₁.length) l₂ := by
  intro l₁
  induction l₁ with
  | nil => intro k l₂; simp [mapWithIdx]
  | cons r t ih =>
    intro k l₂
    simp only [List.cons_append, mapWithIdx, List.length_cons]
    rw [show (t.append l₂) = t ++ l₂ from rfl, ih (k + 1)]
    have harith : k + (t.length + 1) = k + 1 + t.length := by omega
    rw [harith]

theorem mapWithIdx_eq_map_of (g : Run → Run) {f : Nat → Run → Run} :
    ∀ {l : List Run} {k : Nat},
      (∀ j r, k ≤ j → j < k + l.length → f j r = g r) →
      mapWithIdx f k l = l.map g := by
  intro l
  induction l with
  | nil => intro k _; rfl
  | cons r t ih =>
    intro k h
    simp only [mapWithIdx, List.map_cons, List.cons.injEq]
    refine ⟨h k r (Nat.le_refl k) (by simp), ih ?_⟩
    intro j r' hj hjlt
    refine h j r' (by omega) ?_
    simp only [List.length_cons]
    omega

/-! ## The cross-run replacement step -/

theorem getElem?_decomp {l : List α} {k : Nat} {x : α} (h : l[k]? = some x) :
    l = l.take k ++ x :: l.drop (k + 1) := by
  rcases List.getElem?_eq_some_iff.mp h with ⟨hk, hx⟩
  conv_lhs => rw [← List.take_append_drop k l]
  rw [List.drop_eq_getElem_cons hk, hx]

theorem runsText_map_clear (l : List Run) :
    runsText (l.map fun r => { r with text := ([] : Text) }) = [] := by
  induction l with
  | nil => rfl
  | cons r t ih => simp [ih]

theorem pyGet_natCast (l : List α) (n : Nat) : pyGet l (n : Int) = l[n]? := by
  unfold pyGet
  have h1 : ¬ ((n : Int) < 0) := by omega
  simp only [h1, if_false]
  have h2 : (0 : Int) ≤ (n : Int) := Int.natCast_nonneg n
  simp only [h2, if_true, Int.toNat_natCast, List.get?_eq_getElem?]

/-- The length bookkeeping of the take-equation of `charMap_get`: the match
start position equals the length of the preceding runs' text plus the
offset within the spanned run. -/
theorem charMap_pos_eq {rs : List Run} {s ri ci : Nat} {r : Run}
    (hs : s ≤ (runsText rs).length) (hci : ci < r.text.length)
    (htake : (runsText rs).take s = runsText (rs.take ri) ++ r.text.take ci) :
    s = (runsText (rs.take ri)).length + ci := by
  have hlen := congrArg List.length htake
  simp only [List.length_take, List.length_append] at hlen
  omega

/-- The text of a run-list prefix grows by at least the spanned run's text
when the prefix is extended past it. -/
theorem runsText_take_lt {rs : List Run} {i j : Nat} {r : Run}
    (hij : i < j) (hr : rs[i]? = some r) :
    (runsText (rs.take i)).length + r.text.length ≤ (runsText (rs.take j)).length := by
  have hi : i < rs.length := (List.getElem?_eq_some_iff.mp hr).1
  have h1 : rs.take j = (rs.take j).take (i + 1) ++ (rs.take j).drop (i + 1) :=
    (List.take_append_drop _ _).symm
  have h2 : (rs.take j).take (i + 1) = rs.take (i + 1) := by
    rw [List.take_take]
    congr 1
    omega
  have h3 : rs.take (i + 1) = rs.take i ++ r :: [] := by
    rw [List.take_succ]
    rw [hr]
    rfl
  calc (runsText (rs.take i)).length + r.text.length
      = (runsText (rs.take (i + 1))).length := by
        rw [h3]; simp
    _ ≤ (runsText (rs.take j)).length := by
        conv_rhs => rw [h1, h2]
        simp

theorem replStep_text {p : Para} {old : Text} (new : Text) {s : Nat}
    (hfind : findSub old p.text = some s) (hold : old ≠ []) :
    ∃ p', replStep p old new = .next p' ∧
      p'.text = p.text.take s ++ new ++ p.text.drop (s + old.length) ∧
      p'.runs.length = p.runs.length ∧ p'.style = p.style ∧ p'.numPr = p.numPr := by
  have holdlen : 1 ≤ old.length := by
    cases old with
    | nil => exact absurd rfl hold
    | cons c t => simp
  rcases findSub_some hfind with ⟨hpre, hle⟩
  set T := p.text with hT
  set e := s + old.length with he
  have hTlen : 1 ≤ T.length := by omega
  have hrunsne : p.runs.isEmpty = false := by
    cases hr : p.runs with
    | nil =>
      exfalso
      have : T = [] := by rw [hT, para_text_eq_runsText, hr, runsText_nil]
      rw [this] at hTlen
      simp at hTlen
    | cons a l => rfl
  have hcmlen : (charMap p.runs).length = T.length := by
    rw [charMap_length, hT, para_text_eq_runsText]
  have hs_lt : s < (charMap p.runs).length := by omega
  have he_lt : e - 1 < (charMap p.runs).length := by omega
  have hq0 : (charMap p.runs)[s]? = some ((charMap p.runs)[s]) :=
    List.getElem?_eq_getElem hs_lt
  have hq1 : (charMap p.runs)[e - 1]? = some ((charMap p.runs)[e - 1]) :=
    List.getElem?_eq_getElem he_lt
  rcases hq0' : (charMap p.runs)[s] with ⟨ri0, ci0⟩
  rcases hq1' : (charMap p.runs)[e - 1] with ⟨ri1, ci1⟩
  rw [hq0'] at hq0
  rw [hq1'] at hq1
  rcases charMap_get hq0 with ⟨r0, hr0, hci0, htake0, hdrop0⟩
  rcases charMap_get hq1 with ⟨r1, hr1, hci1, htake1, hdrop1⟩
  have he1 : e - 1 + 1 = e := by omega
  rw [he1] at hdrop1
  have hTr : runsText p.runs = T := (para_text_eq_runsText p).symm
  rw [hTr] at htake0 hdrop0 htake1 hdrop1
  have hpyget0 : pyGet (charMap p.runs) (s : Int) = some (ri0, ci0) := by
    rw [pyGet_natCast]; exact hq0
  have hpyget1 : pyGet (charMap p.runs) ((e : Int) - 1) = some (ri1, ci1) := by
    have : ((e : Int) - 1) = ((e - 1 : Nat) : Int) := by omega
    rw [this, pyGet_natCast]; exact hq1
  have hguard : ¬ e > (charMap p.runs).length := by omega
  -- positions of the two map entries
  have hpos0 : s = (runsText (p.runs.take ri0)).length + ci0 :=
    charMap_pos_eq (by rw [hTr]; omega) hci0 (by rw [hTr]; exact htake0)
  have hpos1 : e - 1 = (runsText (p.runs.take ri1)).length + ci1 :=
    charMap_pos_eq (by rw [hTr]; omega) hci1 (by rw [hTr]; exact htake1)
  have hriord : ri0 ≤ ri1 := by
    by_contra hlt
    push_neg at hlt
    have := runsText_take_lt hlt hr1
    omega
  -- unfold one loop-body iteration
  have hstep : replStep p old new =
      (if ri0 = ri1 then
        StepRes.next { p with runs := singleSplice p.runs ri0 ci0 ci1 new }
      else
        StepRes.next { p with runs := spliceRuns p.runs ri0 ci0 ri1 ci1 new }) := by
    rw [replStep]
    rw [← hT, hfind]
    simp only [hrunsne, Bool.false_eq_true, if_false, ← he, hguard, if_false,
      hpyget0, hpyget1]
  by_cases hri : ri0 = ri1
  · -- single-run replacement
    subst hri
    have hrr : r0 = r1 := by
      rw [hr0] at hr1
      injection hr1
    subst hrr
    refine ⟨{ p with runs := singleSplice p.runs ri0 ci0 ci1 new },
      by rw [hstep, if_pos rfl], ?_, ?_, rfl, rfl⟩
    · show runsText (singleSplice p.runs ri0 ci0 ci1 new) = _
      unfold singleSplice
      conv_lhs => rw [getElem?_decomp hr0]
      rw [mapWithIdx_append, mapWithIdx_eq_map_of id ?hA]
      case hA =>
        intro j r hj hjlt
        have hjne : j ≠ ri0 := by
          have := List.length_take_le ri0 p.runs
          simp only [List.length_take] at hjlt ⊢
          omega
        simp [hjne]
      have hAlen : (p.runs.take ri0).length = ri0 := by
        have := (List.getElem?_eq_some_iff.mp hr0).1
        simp only [List.length_take]
        omega
      rw [List.map_id, hAlen]
      simp only [Nat.zero_add]
      simp only [mapWithIdx]
      simp only [if_true]
      rw [mapWithIdx_eq_map_of id ?hC]
      case hC =>
        intro j r hj hjlt
        have hjne : j ≠ ri0 := by omega
        simp [hjne]
      rw [List.map_id]
      rw [runsText_append, runsText_cons]
      rw [htake0, hdrop1]
      simp [List.append_assoc]
    · show (singleSplice p.runs ri0 ci0 ci1 new).length = p.runs.length
      unfold singleSplice
      exact mapWithIdx_length _ 0 p.runs
  · -- multi-run replacement
    have hlt : ri0 < ri1 := by omega
    have hri1len : ri1 < p.runs.length := (List.getElem?_eq_some_iff.mp hr1).1
    refine ⟨{ p with runs := spliceRuns p.runs ri0 ci0 ri1 ci1 new },
      by rw [hstep, if_neg hri], ?_, ?_, rfl, rfl⟩
    · show runsText (spliceRuns p.runs ri0 ci0 ri1 ci1 new) = _
      unfold spliceRuns
      -- decompose the run list around the two spanned runs
      have hmid : (p.runs.drop (ri0 + 1))[ri1 - ri0 - 1]? = some r1 := by
        rw [List.getElem?_drop]
        rw [show ri0 + 1 + (ri1 - ri0 - 1) = ri1 by omega]
        exact hr1
      have hdecomp : p.runs = p.runs.take ri0 ++ r0 ::
          ((p.runs.drop (ri0 + 1)).take (ri1 - ri0 - 1) ++ r1 ::
            (p.runs.drop (ri0 + 1)).drop (ri1 - ri0 - 1 + 1)) := by
        conv_lhs => rw [getElem?_decomp hr0]
        congr 2
        exact getElem?_decomp hmid
      have hAlen : (p.runs.take ri0).length = ri0 := by
        have := (List.getElem?_eq_some_iff.mp hr0).1
        simp only [List.length_take]
        omega
      have hBlen : ((p.runs.drop (ri0 + 1)).take (ri1 - ri0 - 1)).length
          = ri1 - ri0 - 1 := by
        simp only [List.length_take, List.length_drop]
        omega
      have hCtail : (p.runs.drop (ri0 + 1)).drop (ri1 - ri0 - 1 + 1)
          = p.runs.drop (ri1 + 1) := by
        rw [List.drop_drop]
        congr 1
        omega
      conv_lhs => rw [hdecomp]
      rw [mapWithIdx_append, mapWithIdx_eq_map_of id ?hA2]
      case hA2 =>
        intro j r hj hjlt
        rw [hAlen] at hjlt
        have h1 : j ≠ ri0 := by omega
        have h2 : ¬ (ri0 < j ∧ j < ri1) := by omega
        have h3 : j ≠ ri1 := by omega
        simp [h1, h2, h3]
      rw [List.map_id, hAlen]
      simp only [Nat.zero_add]
      simp only [mapWithIdx]
      simp only [if_true]
      rw [mapWithIdx_append, mapWithIdx_eq_map_of
        (fun r => { r with text := ([] : Text) }) ?hB2]
      case hB2 =>
        intro j r hj hjlt
        rw [hBlen] at hjlt
        have h1 : j ≠ ri0 := by omega
        have h2 : ri0 < j ∧ j < ri1 := by omega
        simp [h1, h2]
      rw [hBlen]
      rw [show ri0 + 1 + (ri1 - ri0 - 1) = ri1 by omega]
      simp only [mapWithIdx]
      simp only [if_true]
      have hne1 : ¬ ri1 = ri0 := fun h => hri h.symm
      have hne2 : ¬ (ri0 < ri1 ∧ ri1 < ri1) := by omega
      rw [if_neg hne1, if_neg hne2]
      rw [mapWithIdx_eq_map_of id ?hC2]
      case hC2 =>
        intro j r hj hjlt
        have ha : j ≠ ri0 := by omega
        have hb : ¬ (ri0 < j ∧ j < ri1) := by omega
        have hc : j ≠ ri1 := by omega
        simp [ha, hb, hc]
      rw [List.map_id, hCtail]
      rw [runsText_append, runsText_cons, runsText_append, runsText_cons,
        runsText_map_clear]
      rw [htake0, hdrop1]
      simp [List.append_assoc]
    · show (spliceRuns p.runs ri0 ci0 ri1 ci1 new).length = p.runs.length
      unfold spliceRuns
      exact mapWithIdx_length _ 0 p.runs

/-! ## Termination of the replacement loop -/

/-- Number of characters of `t` that occur in `old`: the termination measure
of the replacement loop when the replacement text shares no character with
the search text. -/
def oldCharCount (old t : Text) : Nat := t.countP fun c => old.contains c

theorem oldCharCount_append (old a b : Text) :
    oldCharCount old (a ++ b) = oldCharCount old a + oldCharCount old b :=
  List.countP_append _ a b

theorem oldCharCount_self (old : Text) : oldCharCount old old = old.length := by
  rw [oldCharCount, List.countP_eq_length]
  intro a ha
  simp [List.contains, ha]

theorem oldCharCount_disjoint {old new : Text} (hdisj : ∀ c ∈ new, c ∉ old) :
    oldCharCount old new = 0 := by
  rw [oldCharCount, List.countP_eq_zero]
  intro a ha
  simp [List.contains, hdisj a ha]

theorem occurrence_le_oldCharCount {old t : Text} {s : Nat}
    (hs : findSub old t = some s) : old.length ≤ oldCharCount old t := by
  have hdec := findSub_decomp hs
  calc old.length = oldCharCount old old := (oldCharCount_self old).symm
    _ ≤ oldCharCount old (t.take s) + (oldCharCount old old +
          oldCharCount old (t.drop (s + old.length))) := by omega
    _ = oldCharCount old t := by
        conv_rhs => rw [hdec]
        rw [List.append_assoc, oldCharCount_append, oldCharCount_append]

theorem replLoopF_term {old new : Text} (hold : old ≠ [])
    (hdisj : ∀ c ∈ new, c ∉ old) :
    ∀ (k : Nat) (p : Para) (count : Nat), oldCharCount old p.text ≤ k →
      ∃ p' cnt, replLoopF (k + 1) p old new count = some (.done p' cnt) ∧
        containsT p'.text old = false := by
  have holdlen : 1 ≤ old.length := by
    cases old with
    | nil => exact absurd rfl hold
    | cons c t => simp
  intro k
  induction k with
  | zero =>
    intro p count hk
    cases hc : containsT p.text old with
    | false => exact ⟨p, count, by rw [replLoopF, hc]; rfl, hc⟩
    | true =>
      exfalso
      rcases containsT_true hc with ⟨s, hs⟩
      have := occurrence_le_oldCharCount hs
      omega
  | succ n ih =>
    intro p count hk
    cases hc : containsT p.text old with
    | false => exact ⟨p, count, by rw [replLoopF, hc]; rfl, hc⟩
    | true =>
      rcases containsT_true hc with ⟨s, hs⟩
      rcases replStep_text new hs hold with ⟨p', hstep, htext, _, _, _⟩
      have hμ : oldCharCount old p'.text + old.length ≤ oldCharCount old p.text := by
        rw [htext]
        conv_rhs => rw [findSub_decomp hs]
        rw [List.append_assoc, List.append_assoc, oldCharCount_append,
          oldCharCount_append, oldCharCount_append, oldCharCount_append,
          oldCharCount_disjoint hdisj, oldCharCount_self]
        omega
      rcases ih p' (count + 1) (by omega) with ⟨p'', cnt, hrun, hfin⟩
      refine ⟨p'', cnt, ?_, hfin⟩
      rw [replLoopF, hc]
      simp only [if_true, hstep]
      exact hrun

/-- One iteration on a paragraph whose text is a block of `a`s, with search
text `"a"` and replacement `"aa"`, yields a paragraph whose text is a longer
block of `a`s: the loop never exits. -/
theorem replLoopF_aa_none :
    ∀ (fuel : Nat) (p : Para) (m count : Nat),
      p.text = List.replicate (m + 1) 'a' →
      replLoopF fuel p (str "a") (str "aa") count = none := by
  intro fuel
  induction fuel with
  | zero => intro p m count _; rfl
  | succ n ih =>
    intro p m count hptext
    have hstra : str "a" = ['a'] := rfl
    have hfind : findSub (str "a") p.text = some 0 := by
      rw [hstra, hptext, List.replicate_succ, findSub]
      simp [List.isPrefixOf]
    have hcont : containsT p.text (str "a") = true := by
      rw [containsT, hfind]
      rfl
    rcases replStep_text (str "aa") hfind (by rw [hstra]; simp) with ⟨p', hstep, htext, _, _, _⟩
    have hptext' : p'.text = List.replicate (m + 2) 'a' := by
      rw [htext, hptext, hstra]
      show List.take 0 _ ++ str "aa" ++ List.drop (0 + 1) _ = _
      rw [List.take_zero, List.nil_append]
      rw [show (0 + 1 : Nat) = 1 from rfl]
      rw [List.replicate_succ, List.drop_succ_cons, List.drop_zero]
      show 'a' :: 'a' :: List.replicate m 'a' = _
      rw [List.replicate_succ, List.replicate_succ]
    rw [replLoopF, hcont]
    simp only [if_true, hstep]
    exact ih p' (m + 1) (count + 1) hptext'

/-! ## The shape of the multi-run splice -/

theorem charMap_ri_mono {rs : List Run} {s e1 ri0 ci0 ri1 ci1 : Nat}
    (hse : s ≤ e1)
    (hq0 : (charMap rs)[s]? = some (ri0, ci0))
    (hq1 : (charMap rs)[e1]? = some (ri1, ci1)) : ri0 ≤ ri1 := by
  have hslen : s < (charMap rs).length := (List.getElem?_eq_some_iff.mp hq0).1
  have helen : e1 < (charMap rs).length := (List.getElem?_eq_some_iff.mp hq1).1
  rcases charMap_get hq0 with ⟨r0, hr0, hci0, htake0, _⟩
  rcases charMap_get hq1 with ⟨r1, hr1, hci1, htake1, _⟩
  have hcl := charMap_length rs
  have hpos0 : s = (runsText (rs.take ri0)).length + ci0 :=
    charMap_pos_eq (by omega) hci0 htake0
  have hpos1 : e1 = (runsText (rs.take ri1)).length + ci1 :=
    charMap_pos_eq (by omega) hci1 htake1
  by_contra hlt
  push_neg at hlt
  have := runsText_take_lt hlt hr1
  omega

theorem replStep_eq {p : Para} {old : Text} (new : Text) {s ri0 ci0 ri1 ci1 : Nat}
    (hfind : findSub old p.text = some s) (hold : old ≠ [])
    (hq0 : (charMap p.runs)[s]? = some (ri0, ci0))
    (hq1 : (charMap p.runs)[s + old.length - 1]? = some (ri1, ci1)) :
    replStep p old new =
      if ri0 = ri1 then
        StepRes.next { p with runs := singleSplice p.runs ri0 ci0 ci1 new }
      else
        StepRes.next { p with runs := spliceRuns p.runs ri0 ci0 ri1 ci1 new } := by
  have holdlen : 1 ≤ old.length := by
    cases old with
    | nil => exact absurd rfl hold
    | cons c t => simp
  rcases findSub_some hfind with ⟨_, hle⟩
  have hcmlen : (charMap p.runs).length = p.text.length := by
    rw [charMap_length, para_text_eq_runsText]
  have hrunsne : p.runs.isEmpty = false := by
    cases hr : p.runs with
    | nil =>
      exfalso
      have h0 : p.text = [] := by rw [para_text_eq_runsText, hr, runsText_nil]
      rw [h0] at hle
      simp only [List.length_nil] at hle
      omega
    | cons a l => rfl
  have hguard : ¬ s + old.length > (charMap p.runs).length := by omega
  have hpyget0 : pyGet (charMap p.runs) (s : Int) = some (ri0, ci0) := by
    rw [pyGet_natCast]; exact hq0
  have hpyget1 : pyGet (charMap p.runs) (((s + old.length : Nat) : Int) - 1)
      = some (ri1, ci1) := by
    have harith : (((s + old.length : Nat) : Int) - 1)
        = ((s + old.length - 1 : Nat) : Int) := by omega
    rw [harith, pyGet_natCast]; exact hq1
  rw [replStep, hfind]
  simp only [hrunsne, Bool.false_eq_true, if_false, hguard, hpyget0, hpyget1]

theorem spliceRuns_segments {rs : List Run} {ri0 ri1 : Nat} {r0 r1 : Run}
    (hr0 : rs[ri0]? = some r0) (hr1 : rs[ri1]? = some r1) (hlt : ri0 < ri1)
    (ci0 ci1 : Nat) (new : Text) :
    spliceRuns rs ri0 ci0 ri1 ci1 new =
      rs.take ri0 ++
        ({ r0 with text := r0.text.take ci0 ++ new } ::
          ((((rs.drop (ri0 + 1)).take (ri1 - ri0 - 1)).map fun r =>
              { r with text := ([] : Text) }) ++
            ({ r1 with text := r1.text.drop (ci1 + 1) } :: rs.drop (ri1 + 1)))) := by
  have hri1len : ri1 < rs.length := (List.getElem?_eq_some_iff.mp hr1).1
  have hAlen : (rs.take ri0).length = ri0 := by
    have := (List.getElem?_eq_some_iff.mp hr0).1
    simp only [List.length_take]
    omega
  have hBlen : ((rs.drop (ri0 + 1)).take (ri1 - ri0 - 1)).length = ri1 - ri0 - 1 := by
    simp only [List.length_take, List.length_drop]
    omega
  have hCtail : (rs.drop (ri0 + 1)).drop (ri1 - ri0 - 1 + 1) = rs.drop (ri1 + 1) := by
    rw [List.drop_drop]
    congr 1
    omega
  have hmid : (rs.drop (ri0 + 1))[ri1 - ri0 - 1]? = some r1 := by
    rw [List.getElem?_drop]
    rw [show ri0 + 1 + (ri1 - ri0 - 1) = ri1 by omega]
    exact hr1
  have hdecomp : rs = rs.take ri0 ++ r0 ::
      ((rs.drop (ri0 + 1)).take (ri1 - ri0 - 1) ++ r1 ::
        (rs.drop (ri0 + 1)).drop (ri1 - ri0 - 1 + 1)) := by
    conv_lhs => rw [getElem?_decomp hr0]
    congr 2
    exact getElem?_decomp hmid
  have hri : ¬ ri0 = ri1 := by omega
  unfold spliceRuns
  conv_lhs => rw [hdecomp]
  rw [mapWithIdx_append, mapWithIdx_eq_map_of id ?hA2]
  case hA2 =>
    intro j r hj hjlt
    rw [hAlen] at hjlt
    have h1 : j ≠ ri0 := by omega
    have h2 : ¬ (ri0 < j ∧ j < ri1) := by omega
    have h3 : j ≠ ri1 := by omega
    simp [h1, h2, h3]
  rw [List.map_id, hAlen]
  simp only [Nat.zero_add]
  simp only [mapWithIdx]
  simp only [if_true]
  rw [mapWithIdx_append, mapWithIdx_eq_map_of
    (fun r => { r with text := ([] : Text) }) ?hB2]
  case hB2 =>
    intro j r hj hjlt
    rw [hBlen] at hjlt
    have h1 : j ≠ ri0 := by omega
    have h2 : ri0 < j ∧ j < ri1 := by omega
    simp [h1, h2]
  rw [hBlen]
  rw [show ri0 + 1 + (ri1 - ri0 - 1) = ri1 by omega]
  simp only [mapWithIdx]
  simp only [if_true]
  have hne1 : ¬ ri1 = ri0 := fun h => hri h.symm
  have hne2 : ¬ (ri0 < ri1 ∧ ri1 < ri1) := by omega
  rw [if_neg hne1, if_neg hne2]
  rw [mapWithIdx_eq_map_of id ?hC2]
  case hC2 =>
    intro j r hj hjlt
    have ha : j ≠ ri0 := by omega
    have hb : ¬ (ri0 < j ∧ j < ri1) := by omega
    have hc : j ≠ ri1 := by omega
    simp [ha, hb, hc]
  rw [List.map_id, hCtail]

/-! ## Claim C5 -/

/-- C5 (counterexample): the claim asserts that the cross-run replacement
loop of `_replace_in_paragraph` terminates for every paragraph and every
pair of strings.  It does not: with `old_text = "a"` and `new_text = "aa"`
on a paragraph containing `"a"`, every iteration recreates the occurrence it
just replaced, so the loop runs forever — at no fuel does the loop finish. -/
theorem C5_counterexample :
    ¬ ∃ fuel res,
        replace_in_paragraph fuel
          { style := none, runs := [⟨str "a", {}⟩], numPr := none }
          (str "a") (str "aa") = some res := by
  rintro ⟨fuel, res, h⟩
  rw [replace_in_paragraph,
    replLoopF_aa_none fuel _ 0 0 (by decide)] at h
  cases h

/-- C5 (amended): for every paragraph and all texts `old_text` (nonempty)
and `new_text` sharing no character with `old_text`, the replacement loop of
`_replace_in_paragraph` terminates (some finite fuel makes it return),
returning the paragraph with the performed replacement count, and no
occurrence of `old_text` remains in the paragraph's text. -/
theorem C5_replace_loop (p : Para) (old new : Text) (hold : old ≠ [])
    (hdisj : ∀ c ∈ new, c ∉ old) :
    ∃ fuel p' cnt,
      replace_in_paragraph fuel p old new = some (.done p' cnt) ∧
        containsT p'.text old = false := by
  rcases replLoopF_term hold hdisj (oldCharCount old p.text) p 0 (Nat.le_refl _)
    with ⟨p', cnt, h1, h2⟩
  exact ⟨oldCharCount old p.text + 1, p', cnt, h1, h2⟩

/-- C5 (witness): the amended loop theorem applied to a concrete paragraph,
replacing `"cat"` (present across two runs) by `"dog"`. -/
theorem C5_replace_loop_witness :
    ∃ fuel p' cnt,
      replace_in_paragraph fuel
        { style := none, runs := [⟨str "the ca", {}⟩, ⟨str "t sat", {}⟩], numPr := none }
        (str "cat") (str "dog") = some (.done p' cnt) ∧
        containsT p'.text (str "cat") = false :=
  C5_replace_loop _ (str "cat") (str "dog") (by decide) (by decide)

/-! ## Claim C9 -/

/-- C9 (counterexample): the claim, read as stated, promises that whenever
the paragraph contains an occurrence of `old` spanning at least two runs,
one replacement step replaces that occurrence, placing the replacement in
the first spanned run.  The code always replaces the *first* occurrence,
which may lie inside a single run even though a later occurrence spans two:
for runs `["ab", "a", "b"]` with `old = "ab"`, `new = "Z"`, the occurrence
at position 2 spans runs 1 and 2, yet one step yields text `"Zab"` (the
claim predicts `"abZ"`), and the first spanned run (index 1) keeps `"a"`
instead of receiving the replacement. -/
theorem C9_counterexample :
    replStep
        { style := none,
          runs := [⟨str "ab", {}⟩, ⟨str "a", {}⟩, ⟨str "b", {}⟩], numPr := none }
        (str "ab") (str "Z") =
      .next { style := none,
              runs := [⟨str "Z", {}⟩, ⟨str "a", {}⟩, ⟨str "b", {}⟩], numPr := none } ∧
    (charMap [⟨str "ab", {}⟩, ⟨str "a", {}⟩, ⟨str "b", {}⟩])[2]? = some (1, 0) ∧
    (charMap [⟨str "ab", {}⟩, ⟨str "a", {}⟩, ⟨str "b", {}⟩])[3]? = some (2, 0) ∧
    Para.text { style := none,
                runs := [⟨str "Z", {}⟩, ⟨str "a", {}⟩, ⟨str "b", {}⟩], numPr := none }
      = str "Zab" ∧
    str "Zab" ≠ str "abZ" := by
  refine ⟨by decide, by decide, by decide, by decide, by decide⟩

/-- C9 (amended): whenever the *first* occurrence of `old` in the
paragraph's concatenated run text spans at least two runs (the character map
assigns its first and last character to distinct run indices), one
replacement step succeeds and produces exactly the paragraph whose full text
is the original text with that occurrence replaced by `new`; the replacement
text is placed entirely in the first spanned run, which keeps its prefix and
its formatting, the intermediate runs are emptied but not removed, the last
spanned run retains only its suffix after the match, and all other runs are
untouched. -/
theorem C9_cross_run (p : Para) (old new : Text) (s ri0 ci0 ri1 ci1 : Nat)
    (hold : old ≠ [])
    (hfind : findSub old p.text = some s)
    (hq0 : (charMap p.runs)[s]? = some (ri0, ci0))
    (hq1 : (charMap p.runs)[s + old.length - 1]? = some (ri1, ci1))
    (hspan : ri0 ≠ ri1) :
    ∃ r0 r1,
      p.runs[ri0]? = some r0 ∧ p.runs[ri1]? = some r1 ∧
      replStep p old new =
        .next { p with runs := spliceRuns p.runs ri0 ci0 ri1 ci1 new } ∧
      runsText (spliceRuns p.runs ri0 ci0 ri1 ci1 new) =
        p.text.take s ++ new ++ p.text.drop (s + old.length) ∧
      spliceRuns p.runs ri0 ci0 ri1 ci1 new =
        p.runs.take ri0 ++
          ({ r0 with text := r0.text.take ci0 ++ new } ::
            ((((p.runs.drop (ri0 + 1)).take (ri1 - ri0 - 1)).map fun r =>
                { r with text := ([] : Text) }) ++
              ({ r1 with text := r1.text.drop (ci1 + 1) } ::
                p.runs.drop (ri1 + 1)))) ∧
      (spliceRuns p.runs ri0 ci0 ri1 ci1 new).length = p.runs.length := by
  have holdlen : 1 ≤ old.length := by
    cases old with
    | nil => exact absurd rfl hold
    | cons c t => simp
  rcases charMap_get hq0 with ⟨r0, hr0, hci0, htake0, _⟩
  rcases charMap_get hq1 with ⟨r1, hr1, hci1, _, hdrop1⟩
  have hTr : runsText p.runs = p.text := (para_text_eq_runsText p).symm
  rw [hTr] at htake0 hdrop1
  have he1 : s + old.length - 1 + 1 = s + old.length := by omega
  rw [he1] at hdrop1
  have hlt : ri0 < ri1 := by
    rcases Nat.lt_or_ge ri0 ri1 with h | h
    · exact h
    · exfalso
      have := charMap_ri_mono (Nat.le_sub_one_of_lt (by omega)) hq0 hq1
      omega
  refine ⟨r0, r1, hr0, hr1, ?_, ?_, spliceRuns_segments hr0 hr1 hlt ci0 ci1 new,
    by unfold spliceRuns; exact mapWithIdx_length _ 0 p.runs⟩
  · rw [replStep_eq new hfind hold hq0 hq1, if_neg hspan]
  · rw [spliceRuns_segments hr0 hr1 hlt ci0 ci1 new]
    rw [runsText_append, runsText_cons, runsText_append, runsText_cons,
      runsText_map_clear]
    rw [htake0, hdrop1]
    simp [List.append_assoc]

/-- C9 (witness): the amended cross-run theorem at a concrete paragraph:
runs `["Hel", "lo world"]` (the first bold), `old = "llo"`, `new = "y"`;
the first occurrence starts at position 2 and spans both runs. -/
theorem C9_cross_run_witness :
    ∃ r0 r1,
      C9wRuns[0]? = some r0 ∧ C9wRuns[1]? = some r1 ∧
      replStep C9wPara (str "llo") (str "y") =
        .next { C9wPara with runs := spliceRuns C9wRuns 0 2 1 1 (str "y") } ∧
      runsText (spliceRuns C9wRuns 0 2 1 1 (str "y")) =
        C9wPara.text.take 2 ++ str "y" ++
          C9wPara.text.drop (2 + (str "llo").length) ∧
      spliceRuns C9wRuns 0 2 1 1 (str "y") =
        C9wRuns.take 0 ++
          ({ r0 with text := r0.text.take 2 ++ str "y" } ::
            ((((C9wRuns.drop 1).take 0).map fun r => { r with text := ([] : Text) }) ++
              ({ r1 with text := r1.text.drop 2 } :: C9wRuns.drop 2))) ∧
      (spliceRuns C9wRuns 0 2 1 1 (str "y")).length = C9wRuns.length :=
  C9_cross_run C9wPara (str "llo") (str "y") 2 0 2 1 1
    (by decide) (by decide) (by decide) (by decide) (by decide)

/-! ## Paragraph-list surgery lemmas -/

@[simp] theorem parasOf_nil : parasOf [] = [] := rfl

@[simp] theorem parasOf_cons_para (p : Para) (es : List Elem) :
    parasOf (.para p :: es) = p :: parasOf es := rfl

@[simp] theorem parasOf_cons_table (t : Table) (es : List Elem) :
    parasOf (.table t :: es) = parasOf es := rfl

@[simp] theorem parasOf_append (l₁ l₂ : List Elem) :
    parasOf (l₁ ++ l₂) = parasOf l₁ ++ parasOf l₂ := by
  simp [parasOf]

@[simp] theorem parasOf_map_para (ps : List Para) :
    parasOf (ps.map Elem.para) = ps := by
  induction ps with
  | nil => rfl
  | cons p t ih => simp [ih]

theorem parasOf_removeParaIdx : ∀ (es : List Elem) (i : Nat),
    parasOf (removeParaIdx es i) = (parasOf es).eraseIdx i := by
  intro es
  induction es with
  | nil => intro i; rfl
  | cons e es ih =>
    intro i
    cases e with
    | para p =>
      cases i with
      | zero => rfl
      | succ n => simp [removeParaIdx, List.eraseIdx_cons_succ, ih]
    | table t => simp [removeParaIdx, ih]

theorem parasOf_foldl_removeParaIdx (L : List Nat) :
    ∀ (es : List Elem),
      parasOf (L.foldl removeParaIdx es) = L.foldl List.eraseIdx (parasOf es) := by
  induction L with
  | nil => intro es; rfl
  | cons i L ih =>
    intro es
    simp only [List.foldl_cons, ih, parasOf_removeParaIdx]

theorem foldl_eraseIdx_range' {α : Type _} :
    ∀ (n : Nat) (P : List α) (s : Nat), s + n ≤ P.length →
      ((List.range' s n).reverse).foldl List.eraseIdx P = P.take s ++ P.drop (s + n) := by
  intro n
  induction n with
  | zero => intro P s _; simp
  | succ m ih =>
    intro P s h
    rw [List.range'_concat, List.reverse_append]
    simp only [List.reverse_cons, List.reverse_nil, List.nil_append,
      List.singleton_append, List.foldl_cons]
    rw [show s + 1 * m = s + m by omega]
    have hPm : P.eraseIdx (s + m) = P.take (s + m) ++ P.drop (s + m + 1) :=
      List.eraseIdx_eq_take_drop_succ P (s + m)
    rw [ih (P.eraseIdx (s + m)) s (by
      rw [hPm]
      simp only [List.length_append, List.length_take, List.length_drop]
      omega)]
    rw [hPm]
    have hlentake : (P.take (s + m)).length = s + m := by
      simp only [List.length_take]
      omega
    rw [take_append_le (by omega), List.take_take,
      show min s (s + m) = s by omega,
      drop_append_ge (by omega), hlentake,
      show s + m - (s + m) = 0 by omega, List.drop_zero,
      show s + (m + 1) = s + m + 1 by omega]

theorem removeParaRange_paras (es : List Elem) (s e : Nat)
    (hs : s ≤ e) (he : e < (parasOf es).length) :
    parasOf (removeParaRange es s e) =
      (parasOf es).take s ++ (parasOf es).drop (e + 1) := by
  rw [removeParaRange, parasOf_foldl_removeParaIdx,
    foldl_eraseIdx_range' (e + 1 - s) (parasOf es) s (by omega),
    show s + (e + 1 - s) = e + 1 by omega]

theorem parasOf_insertAfter : ∀ (es : List Elem) (k : Nat) (ins : List Para),
    k < (parasOf es).length →
    parasOf (insertElemsNearPara es k false (ins.map Elem.para)) =
      (parasOf es).take (k + 1) ++ ins ++ (parasOf es).drop (k + 1) := by
  intro es
  induction es with
  | nil => intro k ins hk; simp at hk
  | cons e es ih =>
    intro k ins hk
    cases e with
    | para p =>
      cases k with
      | zero => simp [insertElemsNearPara]
      | succ n =>
        simp only [parasOf_cons_para, List.length_cons] at hk
        simp only [insertElemsNearPara, parasOf_cons_para]
        rw [ih n ins (by omega)]
        simp [List.take_succ_cons, List.drop_succ_cons]
    | table t =>
      simp only [parasOf_cons_table] at hk
      simp only [insertElemsNearPara, parasOf_cons_table, ih k ins hk]

/-! ## Claim C7 -/

/-- C7: for every document and every valid range
`0 ≤ start_index ≤ end_index < paragraph count`, `delete_paragraph_range`
succeeds with the reported count `end - start + 1`, the resulting document
has exactly the paragraphs outside the range (so the count drops by the span
size and every paragraph before `start_index` and after `end_index` is
unchanged in text and style); for any invalid bounds it returns an
error-tagged message and leaves the document unchanged. -/
theorem C7_delete_range (d : Document) (si ei : Int) :
    (0 ≤ si → si ≤ ei → ei < (d.paragraphs.length : Int) →
      ∃ d', delete_paragraph_range (.doc d) si ei =
          (.okDeletedRange (ei.toNat - si.toNat + 1) si.toNat ei.toNat, .doc d') ∧
        d'.paragraphs =
          d.paragraphs.take si.toNat ++ d.paragraphs.drop (ei.toNat + 1) ∧
        d'.paragraphs.length = d.paragraphs.length - (ei.toNat - si.toNat + 1) ∧
        (∀ j, j < si.toNat → d'.paragraphs[j]? = d.paragraphs[j]?) ∧
        (∀ j, ei.toNat < j → j < d.paragraphs.length →
          d'.paragraphs[j - (ei.toNat - si.toNat + 1)]? = d.paragraphs[j]?)) ∧
    (¬ (0 ≤ si ∧ si ≤ ei ∧ ei < (d.paragraphs.length : Int)) →
      (delete_paragraph_range (.doc d) si ei).1.isFailure = true ∧
      (delete_paragraph_range (.doc d) si ei).2 = .doc d) := by
  have hPd : d.paragraphs = parasOf d.elements := rfl
  constructor
  · intro h0 hse hlt
    have hc1 : ¬ si < 0 := by omega
    have hc2 : ¬ ei ≥ (d.paragraphs.length : Int) := by omega
    have hc3 : ¬ si > ei := by omega
    have hsn : si.toNat ≤ ei.toNat := by omega
    have hen : ei.toNat < (parasOf d.elements).length := by rw [hPd] at hlt; omega
    have hop : delete_paragraph_range (.doc d) si ei =
        (.okDeletedRange (ei.toNat - si.toNat + 1) si.toNat ei.toNat,
         .doc { d with elements := removeParaRange d.elements si.toNat ei.toNat }) := by
      simp only [delete_paragraph_range, hc1, hc2, hc3, if_false]
    have hparas := removeParaRange_paras d.elements si.toNat ei.toNat hsn hen
    refine ⟨{ d with elements := removeParaRange d.elements si.toNat ei.toNat },
      hop, ?_, ?_, ?_, ?_⟩
    · rw [hPd]; exact hparas
    · show (parasOf (removeParaRange d.elements si.toNat ei.toNat)).length = _
      rw [hparas, hPd]
      simp only [List.length_append, List.length_take, List.length_drop]
      omega
    · intro j hj
      show (parasOf (removeParaRange d.elements si.toNat ei.toNat))[j]? = _
      rw [hparas, hPd]
      rw [List.getElem?_append_left (by
        simp only [List.length_take]
        omega)]
      exact List.getElem?_take_of_lt hj
    · intro j hej hjlen
      rw [hPd] at hjlen
      show (parasOf (removeParaRange d.elements si.toNat ei.toNat))[_]? = _
      rw [hparas, hPd]
      rw [List.getElem?_append_right (by
        simp only [List.length_take]
        omega)]
      rw [List.getElem?_drop]
      congr 1
      simp only [List.length_take]
      omega
  · intro hinv
    have : si < 0 ∨ ei ≥ (d.paragraphs.length : Int) ∨ si > ei := by
      omega
    rcases this with h | h | h
    · have h2 : si < 0 := h
      simp only [delete_paragraph_range, h2, if_true]
      refine ⟨by simp [Res.isFailure], by simp⟩
    · by_cases h1 : si < 0
      · simp only [delete_paragraph_range, h1, if_true]
        refine ⟨by simp [Res.isFailure], by simp⟩
      · simp only [delete_paragraph_range, h1, if_false, h, if_true]
        refine ⟨by simp [Res.isFailure], by simp⟩
    · by_cases h1 : si < 0
      · simp only [delete_paragraph_range, h1, if_true]
        refine ⟨by simp [Res.isFailure], by simp⟩
      · by_cases h2 : ei ≥ (d.paragraphs.length : Int)
        · simp only [delete_paragraph_range, h1, if_false, h2, if_true]
          refine ⟨by simp [Res.isFailure], by simp⟩
        · simp only [delete_paragraph_range, h1, if_false, h2, if_false, h, if_true]
          refine ⟨by simp [Res.isFailure], by simp⟩

/-- C7 (witness): the delete-range theorem at concrete inputs — both a valid
call (deleting paragraphs 1–3 of a five-paragraph document) and an invalid
one (range [2, 7] on the same document). -/
theorem C7_delete_range_witness :
    (∃ d', delete_paragraph_range
        (.doc { elements := [.para (mkPara (str "A") (str "Normal")),
                             .para (mkPara (str "B") (str "Normal")),
                             .para (mkPara (str "C") (str "Normal")),
                             .para (mkPara (str "D") (str "Normal")),
                             .para (mkPara (str "E") (str "Normal"))],
                styles := [str "Normal"] }) 1 3 =
        (.okDeletedRange 3 1 3, .doc d') ∧
      d'.paragraphs =
        [mkPara (str "A") (str "Normal"), mkPara (str "B") (str "Normal"),
         mkPara (str "C") (str "Normal"), mkPara (str "D") (str "Normal"),
         mkPara (str "E") (str "Normal")].take 1 ++
        [mkPara (str "A") (str "Normal"), mkPara (str "B") (str "Normal"),
         mkPara (str "C") (str "Normal"), mkPara (str "D") (str "Normal"),
         mkPara (str "E") (str "Normal")].drop 4 ∧
      d'.paragraphs.length = 5 - 3 ∧
      (∀ j, j < 1 → d'.paragraphs[j]? =
        ([mkPara (str "A") (str "Normal"), mkPara (str "B") (str "Normal"),
          mkPara (str "C") (str "Normal"), mkPara (str "D") (str "Normal"),
          mkPara (str "E") (str "Normal")] : List Para)[j]?) ∧
      (∀ j, 3 < j → j < 5 → d'.paragraphs[j - 3]? =
        ([mkPara (str "A") (str "Normal"), mkPara (str "B") (str "Normal"),
          mkPara (str "C") (str "Normal"), mkPara (str "D") (str "Normal"),
          mkPara (str "E") (str "Normal")] : List Para)[j]?)) ∧
    ((delete_paragraph_range
        (.doc { elements := [.para (mkPara (str "A") (str "Normal"))],
                styles := [str "Normal"] }) 2 7).1.isFailure = true ∧
      (delete_paragraph_range
        (.doc { elements := [.para (mkPara (str "A") (str "Normal"))],
                styles := [str "Normal"] }) 2 7).2 =
        .doc { elements := [.para (mkPara (str "A") (str "Normal"))],
               styles := [str "Normal"] }) := by
  constructor
  · have h := (C7_delete_range
      { elements := [.para (mkPara (str "A") (str "Normal")),
                     .para (mkPara (str "B") (str "Normal")),
                     .para (mkPara (str "C") (str "Normal")),
                     .para (mkPara (str "D") (str "Normal")),
                     .para (mkPara (str "E") (str "Normal"))],
        styles := [str "Normal"] } 1 3).1
      (by decide) (by decide) (by decide)
    exact h
  · exact (C7_delete_range
      { elements := [.para (mkPara (str "A") (str "Normal"))],
        styles := [str "Normal"] } 2 7).2 (by decide)

/-! ## Claim C6 -/

/-- C6 (counterexample): the claim quantifies over every document and valid
range, but with an explicit style name that is not defined in the document,
`doc.add_paragraph` raises, the fault is caught, and the operation reports a
failure leaving the document unchanged — with 1 paragraph instead of the
claimed `1 - (0 - 0 + 1) + 2 = 2`. -/
theorem C6_counterexample :
    replace_paragraph_range
        (.doc { elements := [.para (mkPara (str "A") (str "Normal"))],
                styles := [str "Normal"] })
        0 0 [str "X", str "Y"] (some (str "Missing")) false =
      (.caught .replRange,
       .doc { elements := [.para (mkPara (str "A") (str "Normal"))],
              styles := [str "Normal"] }) ∧
    ({ elements := [.para (mkPara (str "A") (str "Normal"))],
       styles := [str "Normal"] : Document }).paragraphs.length = 1 ∧
    (1 : Nat) ≠ 1 - (0 - 0 + 1) + 2 := by
  refine ⟨by decide, by decide, by decide⟩

/-- C6 (amended): for every document, every valid inclusive range and every
new-paragraph list, provided the style resolved by the precedence
`truthy explicit style > preserve_style (style of the paragraph at
start_index) > "Normal"` is defined in the document (always the case when
the list is empty), `replace_paragraph_range` succeeds reporting the span
size and insertion count, and the resulting document's paragraphs are
exactly: the paragraphs before `start_index`, then the new paragraphs in
input order (each a fresh paragraph carrying the resolved style, with an
empty-string entry yielding a blank run-less paragraph), then the paragraphs
after `end_index`.  In particular the paragraph count satisfies
`after + span = before + inserted` and the paragraph originally at
`start_index - 1` is unchanged. -/
theorem C6_replace_range (d : Document) (si ei : Int) (nps : List Text)
    (style : Option Text) (ps : Bool)
    (h0 : 0 ≤ si) (hse : si ≤ ei) (hlt : ei < (d.paragraphs.length : Int))
    (hstyle : nps = [] ∨
      d.styles.contains (rangeStyleToUse d si.toNat style ps) = true) :
    ∃ d', replace_paragraph_range (.doc d) si ei nps style ps =
        (.okReplacedRange (ei.toNat - si.toNat + 1) si.toNat ei.toNat nps.length,
         .doc d') ∧
      d'.paragraphs =
        d.paragraphs.take si.toNat ++
          nps.map (fun t => mkPara t (rangeStyleToUse d si.toNat style ps)) ++
          d.paragraphs.drop (ei.toNat + 1) ∧
      d'.paragraphs.length + (ei.toNat - si.toNat + 1) =
        d.paragraphs.length + nps.length ∧
      (0 < si.toNat → d'.paragraphs[si.toNat - 1]? = d.paragraphs[si.toNat - 1]?) ∧
      (∀ t, t ∈ nps → t = [] →
        (mkPara t (rangeStyleToUse d si.toNat style ps)).runs = []) ∧
      (truthy style = true → rangeStyleToUse d si.toNat style ps = style.getD []) ∧
      (truthy style = false → ps = true →
        rangeStyleToUse d si.toNat style ps =
          ((d.paragraphs[si.toNat]?).getD {}).styleName) ∧
      (truthy style = false → ps = false →
        rangeStyleToUse d si.toNat style ps = str "Normal") := by
  have hPd : d.paragraphs = parasOf d.elements := rfl
  set s := si.toNat with hs
  set e := ei.toNat with he
  have hsn : s ≤ e := by omega
  have hen : e < (parasOf d.elements).length := by rw [← hPd]; omega
  have hslen : s ≤ (parasOf d.elements).length := by omega
  set sty := rangeStyleToUse d s style ps with hsty
  have hcond : (decide (si < 0) || decide (ei ≥ (d.paragraphs.length : Int)) ||
      decide (si > ei)) = false := by
    simp only [Bool.or_eq_false_iff, decide_eq_false_iff_not]
    exact ⟨⟨by omega, by omega⟩, by omega⟩
  have hsc : (!nps.isEmpty && !(d.styles.contains sty)) = false := by
    rcases hstyle with h | h
    · subst h; rfl
    · rw [h]
      simp
  have hparas1 := removeParaRange_paras d.elements s e hsn hen
  have hlenP1 : (parasOf (removeParaRange d.elements s e)).length
      = s + ((parasOf d.elements).length - (e + 1)) := by
    rw [hparas1]
    simp only [List.length_append, List.length_take, List.length_drop]
    omega
  have hnewE : (nps.map fun t => Elem.para (mkPara t sty)) =
      (nps.map fun t => mkPara t sty).map Elem.para := by
    rw [List.map_map]
    rfl
  have hop : replace_paragraph_range (.doc d) si ei nps style ps =
      (.okReplacedRange (e - s + 1) s e nps.length,
       .doc { d with elements :=
          (if s = 0 then
            ((nps.map fun t => mkPara t sty).map Elem.para) ++
              removeParaRange d.elements s e
          else
            insertElemsNearPara (removeParaRange d.elements s e) (s - 1) false
              ((nps.map fun t => mkPara t sty).map Elem.para)) }) := by
    rw [replace_paragraph_range]
    simp only [hcond, Bool.false_eq_true, if_false, hsc, ← hs, ← he, ← hsty, hnewE]
  have hgoal : parasOf (if s = 0 then
        ((nps.map fun t => mkPara t sty).map Elem.para) ++
          removeParaRange d.elements s e
      else
        insertElemsNearPara (removeParaRange d.elements s e) (s - 1) false
          ((nps.map fun t => mkPara t sty).map Elem.para)) =
      (parasOf d.elements).take s ++ (nps.map fun t => mkPara t sty) ++
        (parasOf d.elements).drop (e + 1) := by
    by_cases hs0 : s = 0
    · rw [if_pos hs0]
      rw [parasOf_append, parasOf_map_para, hparas1, hs0]
      simp
    · rw [if_neg hs0]
      have hk : s - 1 < (parasOf (removeParaRange d.elements s e)).length := by
        rw [hlenP1]
        omega
      rw [parasOf_insertAfter _ _ _ hk, hparas1]
      rw [show s - 1 + 1 = s by omega]
      rw [take_append_le (by simp only [List.length_take]; omega), List.take_take,
        show min s s = s by omega]
      rw [drop_append_ge (by simp only [List.length_take]; omega)]
      rw [show s - ((parasOf d.elements).take s).length = 0 by
        simp only [List.length_take]; omega, List.drop_zero]
  refine ⟨_, hop, ?_, ?_, ?_, ?_, ?_, ?_, ?_⟩
  · show parasOf _ = _
    exact hgoal
  · show (parasOf _).length + _ = _
    rw [hgoal, hPd]
    simp only [List.length_append, List.length_take, List.length_drop,
      List.length_map]
    omega
  · intro hspos
    show (parasOf _)[s - 1]? = _
    rw [hgoal, hPd]
    rw [List.getElem?_append_left (by
      simp only [List.length_append, List.length_take, List.length_map]
      omega)]
    rw [List.getElem?_append_left (by
      simp only [List.length_take]
      omega)]
    exact List.getElem?_take_of_lt (by omega)
  · intro t _ ht
    subst ht
    simp [mkPara, add_paragraph_runs]
  · intro htr
    rw [hsty, rangeStyleToUse]
    simp [htr]
  · intro htr hps
    rw [hsty, rangeStyleToUse]
    simp only [htr, Bool.false_eq_true, if_false, hps, if_true]
    cases hq : d.paragraphs.get? s with
    | none =>
      exfalso
      rw [List.get?_eq_getElem?, List.getElem?_eq_none_iff, hPd] at hq
      omega
    | some q =>
      rw [List.get?_eq_getElem?] at hq
      rw [hq]
      rfl
  · intro htr hps
    rw [hsty, rangeStyleToUse]
    simp only [htr, hps, Bool.false_eq_true, if_false]

/-- C6 (witness): the amended replace-range theorem at the specification's
scenario: paragraphs `["A","B","C","D","E"]`, `replace_range(1, 3,
["X","Y"])` with default style handling, yielding `["A","X","Y","E"]`. -/
theorem C6_replace_range_witness :
    ∃ d', replace_paragraph_range
        (.doc { elements := [.para (mkPara (str "A") (str "Normal")),
                             .para (mkPara (str "B") (str "Normal")),
                             .para (mkPara (str "C") (str "Normal")),
                             .para (mkPara (str "D") (str "Normal")),
                             .para (mkPara (str "E") (str "Normal"))],
                styles := [str "Normal"] })
        1 3 [str "X", str "Y"] none false =
        (.okReplacedRange 3 1 3 2, .doc d') ∧
      d'.paragraphs =
        ([mkPara (str "A") (str "Normal"), mkPara (str "B") (str "Normal"),
          mkPara (str "C") (str "Normal"), mkPara (str "D") (str "Normal"),
          mkPara (str "E") (str "Normal")] : List Para).take 1 ++
          ([str "X", str "Y"].map fun t => mkPara t
            (rangeStyleToUse
              { elements := [.para (mkPara (str "A") (str "Normal")),
                             .para (mkPara (str "B") (str "Normal")),
                             .para (mkPara (str "C") (str "Normal")),
                             .para (mkPara (str "D") (str "Normal")),
                             .para (mkPara (str "E") (str "Normal"))],
                styles := [str "Normal"] } 1 none false)) ++
          ([mkPara (str "A") (str "Normal"), mkPara (str "B") (str "Normal"),
            mkPara (str "C") (str "Normal"), mkPara (str "D") (str "Normal"),
            mkPara (str "E") (str "Normal")] : List Para).drop 4 ∧
      d'.paragraphs.length + 3 = 5 + 2 ∧
      (0 < (1 : Nat) → d'.paragraphs[0]? =
        ([mkPara (str "A") (str "Normal"), mkPara (str "B") (str "Normal"),
          mkPara (str "C") (str "Normal"), mkPara (str "D") (str "Normal"),
          mkPara (str "E") (str "Normal")] : List Para)[0]?) := by
  rcases C6_replace_range
      { elements := [.para (mkPara (str "A") (str "Normal")),
                     .para (mkPara (str "B") (str "Normal")),
                     .para (mkPara (str "C") (str "Normal")),
                     .para (mkPara (str "D") (str "Normal")),
                     .para (mkPara (str "E") (str "Normal"))],
        styles := [str "Normal"] }
      1 3 [str "X", str "Y"] none false
      (by decide) (by decide) (by decide) (by right; decide)
    with ⟨d', h1, h2, h3, h4, _⟩
  exact ⟨d', h1, h2, h3, fun _ => h4 (by decide)⟩

/-! ## Claim C3 -/

/-- C3: the claim is false of the code.  On a document whose header is
followed by three paragraphs and no heading/TOC boundary, the block to
delete is all 3 paragraphs strictly below the header, but
`delete_block_under_header` removes only 2 of them and reports 2: its
removal loop's safety check `i < len(doc.paragraphs)` re-reads the
*shrinking* paragraph list while `i` walks the original index range, so the
loop stops after `ceil(span / 2)` removals whenever the block reaches the
end of the document.  `replace_paragraph_block_below_header` then inserts
the new paragraph after the header, leaving the leftover paragraph
`"gamma"` in the saved document. -/
theorem C3_code_eval :
    (delete_block_under_header C3doc (str "Section One")).1 = some 0 ∧
    firstIdx isBlockBoundary (C3doc.paragraphs.drop (0 + 1)) = none ∧
    C3doc.paragraphs.length - (0 + 1) = 3 ∧
    (delete_block_under_header C3doc (str "Section One")).2.2 = 2 ∧
    ((delete_block_under_header C3doc (str "Section One")).2.1.paragraphs.map
      Para.text) = [str "Section One", str "gamma"] ∧
    (replace_paragraph_block_below_header (.doc C3doc) (str "Section One")
        [str "New content"] none).1 =
      .okReplacedBelow (str "Section One") 1 (str "Normal") 2 ∧
    (match (replace_paragraph_block_below_header (.doc C3doc) (str "Section One")
        [str "New content"] none).2 with
     | .doc d' => d'.paragraphs.map Para.text
     | _ => []) = [str "Section One", str "New content", str "gamma"] ∧
    (2 : Nat) ≠ 3 := by
  refine ⟨by decide, by decide, by decide, by decide, by decide, by decide,
    by decide, by decide⟩

/-! ## Claim C1 -/

/-- C1 (counterexample): `replace_block_between_manual_anchors` resolves the
start anchor via `match_fn` (by style), deletes the block below it and saves;
the re-resolution after the save searches by the anchor *text*, which matches
no paragraph, so the operation returns the failure result `Start anchor ...
not found after deletion (unexpected)` — and the saved document still lacks
the deleted paragraph, contradicting the claim's "the file equals its
pre-call state". -/
theorem C1_counterexample :
    (replace_block_between_manual_anchors (.doc C1doc) (str "Zed") [str "N"]
        none (some C1mf) none).1 = .errStartAnchorNotFoundAfterDel (str "Zed") ∧
    (replace_block_between_manual_anchors (.doc C1doc) (str "Zed") [str "N"]
        none (some C1mf) none).1.isFailure = true ∧
    (replace_block_between_manual_anchors (.doc C1doc) (str "Zed") [str "N"]
        none (some C1mf) none).2 =
      .doc { elements := [.para { style := some (str "AnchorStyle"),
                                  runs := [⟨str "Hello", {}⟩], numPr := none }],
             styles := [str "Normal", str "AnchorStyle"] } ∧
    (replace_block_between_manual_anchors (.doc C1doc) (str "Zed") [str "N"]
        none (some C1mf) none).2 ≠ .doc C1doc := by
  refine ⟨by decide, by decide, by decide, by decide⟩

/-- C1 (amended): every failure result of `replace_paragraph_range`,
`delete_paragraph_range`, `replace_paragraph_text`, the three insert
operations and `replace_paragraph_block_below_header` leaves the file in its
pre-call state; for `replace_block_between_manual_anchors` the same holds
for every failure result other than `Start anchor ... not found after
deletion (unexpected)`, which is returned after the deletion has already
been saved (an uncaught fault — `Res.raised`, not a returned failure result
— can likewise strike after that save). -/
theorem C1_fail_no_write :
    (∀ fs si ei nps style ps,
      (replace_paragraph_range fs si ei nps style ps).1.isFailure = true →
      (replace_paragraph_range fs si ei nps style ps).2 = fs) ∧
    (∀ fs si ei,
      (delete_paragraph_range fs si ei).1.isFailure = true →
      (delete_paragraph_range fs si ei).2 = fs) ∧
    (∀ fs i t prs pm,
      (replace_paragraph_text fs i t prs pm).1.isFailure = true →
      (replace_paragraph_text fs i t prs pm).2 = fs) ∧
    (∀ fs tt ht pos hs tpi,
      (insert_header_near_text fs tt ht pos hs tpi).1.isFailure = true →
      (insert_header_near_text fs tt ht pos hs tpi).2 = fs) ∧
    (∀ fs tt lt pos ls tpi ci,
      (insert_line_or_paragraph_near_text fs tt lt pos ls tpi ci).1.isFailure = true →
      (insert_line_or_paragraph_near_text fs tt lt pos ls tpi ci).2 = fs) ∧
    (∀ fs tt items pos tpi bt,
      (insert_numbered_list_near_text fs tt items pos tpi bt).1.isFailure = true →
      (insert_numbered_list_near_text fs tt items pos tpi bt).2 = fs) ∧
    (∀ fs ht nps style,
      (replace_paragraph_block_below_header fs ht nps style).1.isFailure = true →
      (replace_paragraph_block_below_header fs ht nps style).2 = fs) ∧
    (∀ fs sa nps ea mf style,
      (replace_block_between_manual_anchors fs sa nps ea mf style).1.isFailure = true →
      (∀ t, (replace_block_between_manual_anchors fs sa nps ea mf style).1 ≠
        .errStartAnchorNotFoundAfterDel t) →
      (replace_block_between_manual_anchors fs sa nps ea mf style).2 = fs) := by
  refine ⟨?_, ?_, ?_, ?_, ?_, ?_, ?_, ?_⟩
  · intro fs si ei nps style ps h
    cases fs with
    | missing => rfl
    | malformed => rfl
    | doc d =>
      revert h
      unfold replace_paragraph_range
      dsimp only
      split
      · intro _; rfl
      · split
        · intro _; rfl
        · intro h; exact absurd h (by simp [Res.isFailure])
  · intro fs si ei h
    cases fs with
    | missing => rfl
    | malformed => rfl
    | doc d =>
      revert h
      unfold delete_paragraph_range
      dsimp only
      split
      · intro _; rfl
      · split
        · intro _; rfl
        · split
          · intro _; rfl
          · intro h; exact absurd h (by simp [Res.isFailure])
  · intro fs i t prs pm h
    cases fs with
    | missing => rfl
    | malformed => rfl
    | doc d =>
      revert h
      unfold replace_paragraph_text
      dsimp only
      split
      · intro _; rfl
      · split
        · intro _; rfl
        · split
          · intro _; rfl
          · intro h; exact absurd h (by simp [Res.isFailure])
  · intro fs tt ht pos hs tpi h
    cases fs with
    | missing => rfl
    | malformed => rfl
    | doc d =>
      revert h
      unfold insert_header_near_text
      dsimp only
      split
      · intro _; rfl
      · split
        · intro _; rfl
        · intro h; exact absurd h (by simp [Res.isFailure])
  · intro fs tt lt pos ls tpi ci h
    cases fs with
    | missing => rfl
    | malformed => rfl
    | doc d =>
      revert h
      unfold insert_line_or_paragraph_near_text
      dsimp only
      split
      · intro _; rfl
      · split
        · intro _; rfl
        · split
          · intro _; rfl
          · intro h; exact absurd h (by simp [Res.isFailure])
  · intro fs tt items pos tpi bt h
    cases fs with
    | missing => rfl
    | malformed => rfl
    | doc d =>
      revert h
      unfold insert_numbered_list_near_text
      dsimp only
      split
      · intro _; rfl
      · intro h; exact absurd h (by simp [Res.isFailure])
  · intro fs ht nps style h
    cases fs with
    | missing => rfl
    | malformed => rfl
    | doc d =>
      revert h
      unfold replace_paragraph_block_below_header
      dsimp only
      split
      · intro _; rfl
      · split
        · split
          · intro h; exact absurd h (by simp [Res.isFailure])
          · intro _; rfl
        · split
          · intro _; rfl
          · intro h; exact absurd h (by simp [Res.isFailure])
  · intro fs sa nps ea mf style h h2
    cases fs with
    | missing => rfl
    | malformed => rfl
    | doc d =>
      revert h h2
      unfold replace_block_between_manual_anchors
      dsimp only
      split
      · intro _ _; rfl
      · split
        · intro _ h2; exact absurd rfl (h2 sa)
        · split
          · intro h _; exact absurd h (by simp [Res.isFailure])
          · intro h _; exact absurd h (by simp [Res.isFailure])

/-- C1 (witness): the amended no-partial-write theorem applied at concrete
failing inputs — a missing file for `replace_paragraph_range` and for
`replace_block_between_manual_anchors`. -/
theorem C1_fail_no_write_witness :
    (replace_paragraph_range .missing 0 0 [] none false).2 = .missing ∧
    (replace_block_between_manual_anchors .missing (str "A") [] none none
      none).2 = .missing := by
  constructor
  · exact C1_fail_no_write.1 .missing 0 0 [] none false (by decide)
  · exact C1_fail_no_write.2.2.2.2.2.2.2 .missing (str "A") [] none none none
      (by decide) (fun t h => by simp [replace_block_between_manual_anchors] at h)

/-! ## Claim C2 -/

/-- C2 (counterexample): the two composites named by the claim are exactly
the operations that are *not* wrapped in `try/except`: opening a malformed
file raises to the caller from both, and
`replace_paragraph_block_below_header` also raises on a well-formed document
when the (default) paragraph style is not defined in it. -/
theorem C2_counterexample :
    (replace_paragraph_block_below_header .malformed (str "H") [str "N"]
      none).1 = .raised ∧
    (replace_paragraph_block_below_header .malformed (str "H") [str "N"]
      none).1.isRaised = true ∧
    (replace_block_between_manual_anchors .malformed (str "A") [str "N"] none
      none none).1 = .raised ∧
    (replace_block_between_manual_anchors .malformed (str "A") [str "N"] none
      none none).1.isRaised = true ∧
    (replace_paragraph_block_below_header
      (.doc { elements := [.para (mkPara (str "Heading") (str "Heading 1"))],
              styles := [] })
      (str "Heading") [str "N"] none).1 = .raised := by
  refine ⟨rfl, rfl, rfl, rfl, by decide⟩

/-- The failure descriptors produced by the insert operations' target
resolution are returned messages, never an uncaught fault. -/
theorem resolveInsTarget_error_not_raised {d : Document} {tt : Option Text}
    {tpi : Option Int} {r : Res} (h : resolveInsTarget d tt tpi = .error r) :
    r.isRaised = false := by
  unfold resolveInsTarget at h
  split at h
  · split at h
    · cases h; rfl
    · cases h
  · split at h
    · cases h; rfl
    · cases h

/-- C2 (amended): the six operations whose bodies run inside `try/except` —
`replace_paragraph_range`, `delete_paragraph_range`, `replace_paragraph_text`
and the three insert operations — are total: on every file state and every
parameter value they return a success or failure descriptor and never let a
raised fault propagate (`Res.isRaised` is `false` on every path).  The claim
is false for `replace_paragraph_block_below_header` and
`replace_block_between_manual_anchors`, whose bodies have no such wrapper. -/
theorem C2_wrapped_total :
    (∀ fs si ei nps style ps,
      (replace_paragraph_range fs si ei nps style ps).1.isRaised = false) ∧
    (∀ fs si ei, (delete_paragraph_range fs si ei).1.isRaised = false) ∧
    (∀ fs i t prs pm,
      (replace_paragraph_text fs i t prs pm).1.isRaised = false) ∧
    (∀ fs tt ht pos hs tpi,
      (insert_header_near_text fs tt ht pos hs tpi).1.isRaised = false) ∧
    (∀ fs tt lt pos ls tpi ci,
      (insert_line_or_paragraph_near_text fs tt lt pos ls tpi ci).1.isRaised
        = false) ∧
    (∀ fs tt items pos tpi bt,
      (insert_numbered_list_near_text fs tt items pos tpi bt).1.isRaised
        = false) := by
  refine ⟨?_, ?_, ?_, ?_, ?_, ?_⟩
  · intro fs si ei nps style ps
    cases fs with
    | missing => rfl
    | malformed => rfl
    | doc d =>
      unfold replace_paragraph_range
      dsimp only
      split
      · rfl
      · split
        · rfl
        · rfl
  · intro fs si ei
    cases fs with
    | missing => rfl
    | malformed => rfl
    | doc d =>
      unfold delete_paragraph_range
      dsimp only
      split
      · rfl
      · split
        · rfl
        · split
          · rfl
          · rfl
  · intro fs i t prs pm
    cases fs with
    | missing => rfl
    | malformed => rfl
    | doc d =>
      unfold replace_paragraph_text
      dsimp only
      split
      · rfl
      · split
        · rfl
        · split
          · rfl
          · rfl
  · intro fs tt ht pos hs tpi
    cases fs with
    | missing => rfl
    | malformed => rfl
    | doc d =>
      unfold insert_header_near_text
      dsimp only
      split
      · rename_i r heq
        exact resolveInsTarget_error_not_raised heq
      · split
        · rfl
        · rfl
  · intro fs tt lt pos ls tpi ci
    cases fs with
    | missing => rfl
    | malformed => rfl
    | doc d =>
      unfold insert_line_or_paragraph_near_text
      dsimp only
      split
      · rename_i r heq
        exact resolveInsTarget_error_not_raised heq
      · split
        · rfl
        · split
          · rfl
          · rfl
  · intro fs tt items pos tpi bt
    cases fs with
    | missing => rfl
    | malformed => rfl
    | doc d =>
      unfold insert_numbered_list_near_text
      dsimp only
      split
      · rename_i r heq
        exact resolveInsTarget_error_not_raised heq
      · rfl

/-! ## Claim C4 -/

/-- `find_and_replace_text` leaves a TOC paragraph untouched (and counts no
replacement in it). -/
theorem farPara_toc (fuel : Nat) (old new : Text) {p : Para}
    (h : isTOCfr p = true) : farPara fuel old new p = some (.ok (p, 0)) := by
  unfold farPara
  rw [if_pos h]

/-- The paragraph pass of `find_and_replace_text` preserves list length. -/
theorem farParas_length {fuel : Nat} {old new : Text} :
    ∀ {ps ps' : List Para} {c : Nat},
      farParas fuel old new ps = some (.ok (ps', c)) → ps'.length = ps.length := by
  intro ps
  induction ps with
  | nil =>
    intro ps' c h
    rw [farParas] at h
    cases h
    rfl
  | cons q qs ih =>
    intro ps' c h
    rw [farParas] at h
    cases hq : farPara fuel old new q with
    | none => rw [hq] at h; cases h
    | some e =>
      rw [hq] at h
      cases e with
      | error u => simp at h
      | ok pc =>
        obtain ⟨q', c0⟩ := pc
        cases hqs : farParas fuel old new qs with
        | none => rw [hqs] at h; cases h
        | some e2 =>
          rw [hqs] at h
          cases e2 with
          | error u => simp at h
          | ok psc =>
            obtain ⟨qs', c1⟩ := psc
            simp only [Option.some.injEq, Except.ok.injEq, Prod.mk.injEq] at h
            obtain ⟨h1, _⟩ := h
            subst h1
            simp [ih hqs]

/-- Pointwise: a TOC paragraph of the input paragraph list reappears
unchanged at the same index in the output of the paragraph pass. -/
theorem farParas_toc_preserved {fuel : Nat} {old new : Text} :
    ∀ {ps ps' : List Para} {c : Nat},
      farParas fuel old new ps = some (.ok (ps', c)) →
      ∀ (i : Nat) (p : Para), ps[i]? = some p → isTOCfr p = true →
        ps'[i]? = some p := by
  intro ps
  induction ps with
  | nil =>
    intro ps' c h i p hi
    simp at hi
  | cons q qs ih =>
    intro ps' c h i p hi htoc
    rw [farParas] at h
    cases hq : farPara fuel old new q with
    | none => rw [hq] at h; cases h
    | some e =>
      rw [hq] at h
      cases e with
      | error u => simp at h
      | ok pc =>
        obtain ⟨q', c0⟩ := pc
        cases hqs : farParas fuel old new qs with
        | none => rw [hqs] at h; cases h
        | some e2 =>
          rw [hqs] at h
          cases e2 with
          | error u => simp at h
          | ok psc =>
            obtain ⟨qs', c1⟩ := psc
            simp only [Option.some.injEq, Except.ok.injEq, Prod.mk.injEq] at h
            obtain ⟨h1, _⟩ := h
            subst h1
            cases i with
            | zero =>
              simp only [List.getElem?_cons_zero, Option.some.injEq] at hi
              subst hi
              rw [farPara_toc fuel old new htoc] at hq
              simp only [Option.some.injEq, Except.ok.injEq, Prod.mk.injEq] at hq
              simp [hq.1]
            | succ k =>
              simp only [List.getElem?_cons_succ] at hi ⊢
              exact ih hqs k p hi htoc

/-- Writing processed tables back does not touch the paragraph elements. -/
theorem parasOf_setTables : ∀ (es : List Elem) (ts : List Table),
    parasOf (setTables es ts) = parasOf es := by
  intro es
  induction es with
  | nil => intro ts; rfl
  | cons e es ih =>
    intro ts
    cases e with
    | para p =>
      cases ts with
      | nil =>
        show p :: parasOf (setTables es []) = p :: parasOf es
        rw [ih []]
      | cons t ts =>
        show p :: parasOf (setTables es (t :: ts)) = p :: parasOf es
        rw [ih (t :: ts)]
    | table t =>
      cases ts with
      | nil =>
        show parasOf (setTables es []) = parasOf es
        exact ih []
      | cons t' ts =>
        show parasOf (setTables es ts) = parasOf es
        exact ih ts

/-- Writing a processed paragraph list of matching length back yields exactly
that list as the document's paragraphs. -/
theorem parasOf_setParas : ∀ (es : List Elem) (ps : List Para),
    (parasOf es).length = ps.length → parasOf (setParas es ps) = ps := by
  intro es
  induction es with
  | nil =>
    intro ps h
    cases ps with
    | nil => rfl
    | cons p ps =>
      exact absurd h (by simp [parasOf])
  | cons e es ih =>
    intro ps h
    cases e with
    | para p =>
      cases ps with
      | nil =>
        exact absurd h (by simp [parasOf])
      | cons p' ps' =>
        show p' :: parasOf (setParas es ps') = p' :: ps'
        have hlen : (parasOf es).length = ps'.length := by
          have h' : (parasOf es).length + 1 = ps'.length + 1 := h
          omega
        rw [ih ps' hlen]
    | table t =>
      show parasOf (setParas es ps) = ps
      exact ih ps h

/-- The cell pass of `find_and_replace_text` preserves TOC paragraphs in
every cell of a row. -/
theorem farRow_preserved {fuel : Nat} {old new : Text} :
    ∀ {cells cells' : List (List Para)} {c : Nat},
      farRow fuel old new cells = some (.ok (cells', c)) →
      ∀ (ci : Nat) (cell : List Para), cells[ci]? = some cell →
        ∃ cell', cells'[ci]? = some cell' ∧
          ∀ (pi : Nat) (p : Para), cell[pi]? = some p → isTOCfr p = true →
            cell'[pi]? = some p := by
  intro cells
  induction cells with
  | nil =>
    intro cells' c h ci cell hi
    simp at hi
  | cons q qs ih =>
    intro cells' c h ci cell hi
    rw [farRow] at h
    cases hq : farParas fuel old new q with
    | none => rw [hq] at h; cases h
    | some e =>
      rw [hq] at h
      cases e with
      | error u => simp at h
      | ok pc =>
        obtain ⟨q', c0⟩ := pc
        cases hqs : farRow fuel old new qs with
        | none => rw [hqs] at h; cases h
        | some e2 =>
          rw [hqs] at h
          cases e2 with
          | error u => simp at h
          | ok psc =>
            obtain ⟨qs', c1⟩ := psc
            simp only [Option.some.injEq, Except.ok.injEq, Prod.mk.injEq] at h
            obtain ⟨h1, _⟩ := h
            subst h1
            cases ci with
            | zero =>
              simp only [List.getElem?_cons_zero, Option.some.injEq] at hi
              subst hi
              exact ⟨q', by simp, fun pi p hp ht => farParas_toc_preserved hq pi p hp ht⟩
            | succ k =>
              simp only [List.getElem?_cons_succ] at hi ⊢
              exact ih hqs k cell hi

/-- The row pass of `find_and_replace_text` preserves TOC paragraphs in
every cell of every row of a table. -/
theorem farTable_preserved {fuel : Nat} {old new : Text} :
    ∀ {rows rows' : List (List (List Para))} {c : Nat},
      farTable fuel old new rows = some (.ok (rows', c)) →
      ∀ (ri : Nat) (row : List (List Para)), rows[ri]? = some row →
        ∃ row', rows'[ri]? = some row' ∧
          ∀ (ci : Nat) (cell : List Para), row[ci]? = some cell →
            ∃ cell', row'[ci]? = some cell' ∧
              ∀ (pi : Nat) (p : Para), cell[pi]? = some p → isTOCfr p = true →
                cell'[pi]? = some p := by
  intro rows
  induction rows with
  | nil =>
    intro rows' c h ri row hi
    simp at hi
  | cons q qs ih =>
    intro rows' c h ri row hi
    rw [farTable] at h
    cases hq : farRow fuel old new q with
    | none => rw [hq] at h; cases h
    | some e =>
      rw [hq] at h
      cases e with
      | error u => simp at h
      | ok pc =>
        obtain ⟨q', c0⟩ := pc
        cases hqs : farTable fuel old new qs with
        | none => rw [hqs] at h; cases h
        | some e2 =>
          rw [hqs] at h
          cases e2 with
          | error u => simp at h
          | ok psc =>
            obtain ⟨qs', c1⟩ := psc
            simp only [Option.some.injEq, Except.ok.injEq, Prod.mk.injEq] at h
            obtain ⟨h1, _⟩ := h
            subst h1
            cases ri with
            | zero =>
              simp only [List.getElem?_cons_zero, Option.some.injEq] at hi
              subst hi
              exact ⟨q', by simp, fun ci cell hc => farRow_preserved hq ci cell hc⟩
            | succ k =>
              simp only [List.getElem?_cons_succ] at hi ⊢
              exact ih hqs k row hi

/-- The table pass of `find_and_replace_text` preserves TOC paragraphs in
every cell of every table. -/
theorem farTables_preserved {fuel : Nat} {old new : Text} :
    ∀ {ts : List Table} {ts' : List Table} {c : Nat},
      farTables fuel old new ts = some (.ok (ts', c)) →
      ∀ (ti : Nat) (t : Table), ts[ti]? = some t →
        ∃ t', ts'[ti]? = some t' ∧
          ∀ (ri : Nat) (row : List (List Para)), t.rows[ri]? = some row →
            ∃ row', t'.rows[ri]? = some row' ∧
              ∀ (ci : Nat) (cell : List Para), row[ci]? = some cell →
                ∃ cell', row'[ci]? = some cell' ∧
                  ∀ (pi : Nat) (p : Para), cell[pi]? = some p →
                    isTOCfr p = true → cell'[pi]? = some p := by
  intro ts
  induction ts with
  | nil =>
    intro ts' c h ti t hi
    simp at hi
  | cons q qs ih =>
    intro ts' c h ti t hi
    rw [farTables] at h
    cases hq : farTable fuel old new q.rows with
    | none => rw [hq] at h; cases h
    | some e =>
      rw [hq] at h
      cases e with
      | error u => simp at h
      | ok pc =>
        obtain ⟨q', c0⟩ := pc
        cases hqs : farTables fuel old new qs with
        | none => rw [hqs] at h; cases h
        | some e2 =>
          rw [hqs] at h
          cases e2 with
          | error u => simp at h
          | ok psc =>
            obtain ⟨qs', c1⟩ := psc
            simp only [Option.some.injEq, Except.ok.injEq, Prod.mk.injEq] at h
            obtain ⟨h1, _⟩ := h
            subst h1
            cases ti with
            | zero =>
              simp only [List.getElem?_cons_zero, Option.some.injEq] at hi
              subst hi
              exact ⟨⟨q'⟩, by simp, fun ri row hr => farTable_preserved hq ri row hr⟩
            | succ k =>
              simp only [List.getElem?_cons_succ] at hi ⊢
              exact ih hqs k t hi

/-- The table pass of `find_and_replace_text` preserves list length. -/
theorem farTables_length {fuel : Nat} {old new : Text} :
    ∀ {ts ts' : List Table} {c : Nat},
      farTables fuel old new ts = some (.ok (ts', c)) → ts'.length = ts.length := by
  intro ts
  induction ts with
  | nil =>
    intro ts' c h
    rw [farTables] at h
    cases h
    rfl
  | cons q qs ih =>
    intro ts' c h
    rw [farTables] at h
    cases hq : farTable fuel old new q.rows with
    | none => rw [hq] at h; cases h
    | some e =>
      rw [hq] at h
      cases e with
      | error u => simp at h
      | ok pc =>
        obtain ⟨q', c0⟩ := pc
        cases hqs : farTables fuel old new qs with
        | none => rw [hqs] at h; cases h
        | some e2 =>
          rw [hqs] at h
          cases e2 with
          | error u => simp at h
          | ok psc =>
            obtain ⟨qs', c1⟩ := psc
            simp only [Option.some.injEq, Except.ok.injEq, Prod.mk.injEq] at h
            obtain ⟨h1, _⟩ := h
            subst h1
            simp [ih hqs]

/-- Writing processed paragraphs back does not touch the table elements. -/
theorem tablesOf_setParas : ∀ (es : List Elem) (ps : List Para),
    tablesOf (setParas es ps) = tablesOf es := by
  intro es
  induction es with
  | nil => intro ps; cases ps <;> rfl
  | cons e es ih =>
    intro ps
    cases e with
    | para p =>
      cases ps with
      | nil =>
        show tablesOf (setParas es []) = tablesOf es
        exact ih []
      | cons p' ps' =>
        show tablesOf (setParas es ps') = tablesOf es
        exact ih ps'
    | table t =>
      show t :: tablesOf (setParas es ps) = t :: tablesOf es
      rw [ih ps]

/-- Writing a processed table list of matching length back yields exactly
that list as the document's tables. -/
theorem tablesOf_setTables : ∀ (es : List Elem) (ts : List Table),
    (tablesOf es).length = ts.length → tablesOf (setTables es ts) = ts := by
  intro es
  induction es with
  | nil =>
    intro ts h
    cases ts with
    | nil => rfl
    | cons t ts => exact absurd h (by simp [tablesOf])
  | cons e es ih =>
    intro ts h
    cases e with
    | table t =>
      cases ts with
      | nil => exact absurd h (by simp [tablesOf])
      | cons t' ts' =>
        show t' :: tablesOf (setTables es ts') = t' :: ts'
        have hlen : (tablesOf es).length = ts'.length := by
          have h' : (tablesOf es).length + 1 = ts'.length + 1 := h
          omega
        rw [ih ts' hlen]
    | para p =>
      show tablesOf (setTables es ts) = ts
      exact ih ts h

/-- C4 (counterexample): `find_text` has no TOC filter — a TOC-styled
paragraph whose text contains the query is reported as an occurrence — and
the header resolution of `delete_block_under_header` (used by the replace
composite) matches a TOC-styled paragraph and deletes the block below it. -/
theorem C4_counterexample :
    is_toc_paragraph C4tocPara = true ∧
    C4tocDoc.paragraphs[0]? = some C4tocPara ∧
    find_text (.doc C4tocDoc) (str "hello") true false false =
      .ok [⟨.body 0, 0, .ctx (str "hello world")⟩] 1 ∧
    findHeaderIdxDel C4tocDoc.paragraphs (str "hello world") = some 0 ∧
    (delete_block_under_header C4tocDoc (str "hello world")).1 = some 0 ∧
    (delete_block_under_header C4tocDoc (str "hello world")).2.2 = 1 ∧
    ((delete_block_under_header C4tocDoc (str "hello world")).2.1.paragraphs.map
      Para.text) = [str "hello world"] := by
  refine ⟨by decide, by decide, by decide, by decide, by decide, by decide,
    by decide⟩

/-- C4 (amended): the TOC-protection invariant holds of
`find_and_replace_text` and of the TOC-filtered resolutions: (1) whenever
`find_and_replace_text` completes, every body paragraph whose style name
starts with `"TOC"` reappears unchanged at its index; (2) the header
resolution of `replace_paragraph_block_below_header` never resolves to a
TOC-styled paragraph; (3) the same preservation holds for every TOC-styled
paragraph in every table cell; (4) the target search of the insert
operations never resolves to a paragraph whose style name lower-cases to a
`"toc"` prefix.
As stated the claim is false: `find_text` reports TOC-styled paragraphs,
and the inner header resolution of `delete_block_under_header` matches
them. -/
theorem C4_toc_skip :
    (∀ (fuel : Nat) (d : Document) (old new : Text) (d' : Document) (n : Nat),
      find_and_replace_text fuel d old new = some (.ok (d', n)) →
      ∀ (i : Nat) (p : Para), d.paragraphs[i]? = some p → isTOCfr p = true →
        d'.paragraphs[i]? = some p) ∧
    (∀ (paras : List Para) (ht : Text) (i : Nat),
      findHeaderIdxBelow paras ht = some i →
      ∃ p, paras[i]? = some p ∧ is_toc_paragraph p = false) ∧
    (∀ (fuel : Nat) (d : Document) (old new : Text) (d' : Document) (n : Nat),
      find_and_replace_text fuel d old new = some (.ok (d', n)) →
      ∀ (ti : Nat) (t : Table), d.tables[ti]? = some t →
        ∃ t', d'.tables[ti]? = some t' ∧
          ∀ (ri : Nat) (row : List (List Para)), t.rows[ri]? = some row →
            ∃ row', t'.rows[ri]? = some row' ∧
              ∀ (ci : Nat) (cell : List Para), row[ci]? = some cell →
                ∃ cell', row'[ci]? = some cell' ∧
                  ∀ (pi : Nat) (p : Para), cell[pi]? = some p →
                    isTOCfr p = true → cell'[pi]? = some p) ∧
    (∀ (d : Document) (tt : Option Text) (i : Nat),
      findTargetIdx d tt = some i →
      ∃ p, d.paragraphs[i]? = some p ∧
        (match p.style with
         | some st => (str "toc").isPrefixOf (lowerT st)
         | none => false) = false) := by
  refine ⟨?_, ?_, ?_, ?_⟩
  · intro fuel d old new d' n h i p hi htoc
    unfold find_and_replace_text at h
    cases hps : farParas fuel old new d.paragraphs with
    | none => rw [hps] at h; cases h
    | some e =>
      rw [hps] at h
      cases e with
      | error u => simp at h
      | ok psc =>
        obtain ⟨ps', c1⟩ := psc
        cases hts : farTables fuel old new d.tables with
        | none => rw [hts] at h; cases h
        | some e2 =>
          rw [hts] at h
          cases e2 with
          | error u => simp at h
          | ok tsc =>
            obtain ⟨ts', c2⟩ := tsc
            simp only [Option.some.injEq, Except.ok.injEq, Prod.mk.injEq] at h
            obtain ⟨hd', _⟩ := h
            have hlen : ps'.length = (parasOf d.elements).length :=
              farParas_length hps
            have hpars : d'.paragraphs = ps' := by
              rw [← hd']
              show parasOf (setTables (setParas d.elements ps') ts') = ps'
              rw [parasOf_setTables]
              exact parasOf_setParas d.elements ps' hlen.symm
            rw [hpars]
            exact farParas_toc_preserved hps i p hi htoc
  · intro paras ht i h
    unfold findHeaderIdxBelow at h
    dsimp only at h
    cases h1 : firstIdx (exactBelowPred (lowerT (normalize_text ht))) paras with
    | some j =>
      rw [h1] at h
      cases h
      obtain ⟨⟨p, hp, hpred⟩, _⟩ := firstIdx_eq_some.mp h1
      refine ⟨p, hp, ?_⟩
      unfold exactBelowPred at hpred
      cases hto : is_toc_paragraph p with
      | false => rfl
      | true => rw [hto] at hpred; simp at hpred
    | none =>
      rw [h1] at h
      obtain ⟨⟨p, hp, hpred⟩, _⟩ := firstIdx_eq_some.mp h
      refine ⟨p, hp, ?_⟩
      unfold containsBelowPred at hpred
      cases hto : is_toc_paragraph p with
      | false => rfl
      | true => rw [hto] at hpred; simp at hpred
  · intro fuel d old new d' n h ti t hti
    unfold find_and_replace_text at h
    cases hps : farParas fuel old new d.paragraphs with
    | none => rw [hps] at h; cases h
    | some e =>
      rw [hps] at h
      cases e with
      | error u => simp at h
      | ok psc =>
        obtain ⟨ps', c1⟩ := psc
        cases hts : farTables fuel old new d.tables with
        | none => rw [hts] at h; cases h
        | some e2 =>
          rw [hts] at h
          cases e2 with
          | error u => simp at h
          | ok tsc =>
            obtain ⟨ts', c2⟩ := tsc
            simp only [Option.some.injEq, Except.ok.injEq, Prod.mk.injEq] at h
            obtain ⟨hd', _⟩ := h
            have hlen : ts'.length = (tablesOf d.elements).length :=
              farTables_length hts
            have htabs : d'.tables = ts' := by
              rw [← hd']
              show tablesOf (setTables (setParas d.elements ps') ts') = ts'
              exact tablesOf_setTables _ ts'
                (by rw [tablesOf_setParas]; exact hlen.symm)
            rw [htabs]
            exact farTables_preserved hts ti t hti
  · intro d tt i h
    unfold findTargetIdx at h
    obtain ⟨⟨p, hp, hpred⟩, _⟩ := firstIdx_eq_some.mp h
    refine ⟨p, hp, ?_⟩
    cases hto : (match p.style with
      | some st => (str "toc").isPrefixOf (lowerT st)
      | none => false) with
    | false => rfl
    | true => rw [hto] at hpred; simp at hpred

/-! ## Claim C8 -/

/-- C8: both header/heading resolutions are two-pass with the claimed
discipline.  For `replace_paragraph_block_below_header`: a hit of the exact
pass is the result and the contains pass runs only when the exact pass finds
nothing (conjuncts 1–2); the contains predicate only accepts heading-styled
paragraphs (conjunct 3); every resolved index carries a matching paragraph
and every earlier index fails the exact pass (conjunct 4).  Conjuncts 5–8
state the same for `get_section_paragraphs`' resolution (whose two passes
are both heading-restricted).  Conjuncts 9–10 connect the resolvers to the
operations: an unresolved header/heading is reported as the not-found
failure with the document untouched. -/
theorem C8_two_pass :
    (∀ (paras : List Para) (ht : Text) (i : Nat),
      firstIdx (exactBelowPred (lowerT (normalize_text ht))) paras = some i →
      findHeaderIdxBelow paras ht = some i) ∧
    (∀ (paras : List Para) (ht : Text),
      firstIdx (exactBelowPred (lowerT (normalize_text ht))) paras = none →
      findHeaderIdxBelow paras ht =
        firstIdx (containsBelowPred (lowerT (normalize_text ht))) paras) ∧
    (∀ (nq : Text) (p : Para), containsBelowPred nq p = true →
      is_heading_paragraph p = true) ∧
    (∀ (paras : List Para) (ht : Text) (i : Nat),
      findHeaderIdxBelow paras ht = some i →
      (∃ p, paras[i]? = some p ∧
        (exactBelowPred (lowerT (normalize_text ht)) p = true ∨
          containsBelowPred (lowerT (normalize_text ht)) p = true)) ∧
      ∀ (j : Nat), j < i → ∀ (q : Para), paras[j]? = some q →
        exactBelowPred (lowerT (normalize_text ht)) q = false) ∧
    (∀ (paras : List Para) (ht : Text) (i : Nat),
      firstIdx (exactSectionPred (normalize_text ht)) paras = some i →
      findHeadingIdxSection paras ht = some i) ∧
    (∀ (paras : List Para) (ht : Text),
      firstIdx (exactSectionPred (normalize_text ht)) paras = none →
      findHeadingIdxSection paras ht =
        firstIdx (containsSectionPred (normalize_text ht)) paras) ∧
    (∀ (nq : Text) (p : Para), containsSectionPred nq p = true →
      isHeadingStyled p = true) ∧
    (∀ (paras : List Para) (ht : Text) (i : Nat),
      findHeadingIdxSection paras ht = some i →
      (∃ p, paras[i]? = some p ∧
        (exactSectionPred (normalize_text ht) p = true ∨
          containsSectionPred (normalize_text ht) p = true)) ∧
      ∀ (j : Nat), j < i → ∀ (q : Para), paras[j]? = some q →
        exactSectionPred (normalize_text ht) q = false) ∧
    (∀ (d : Document) (ht : Text) (nps : List Text) (style : Option Text),
      findHeaderIdxBelow d.paragraphs ht = none →
      replace_paragraph_block_below_header (.doc d) ht nps style =
        (.errHeaderNotFound ht, .doc d)) ∧
    (∀ (d : Document) (ht : Text) (inc : Bool),
      findHeadingIdxSection d.paragraphs ht = none →
      get_section_paragraphs (.doc d) ht inc = .errHeadingNotFound ht) := by
  refine ⟨?_, ?_, ?_, ?_, ?_, ?_, ?_, ?_, ?_, ?_⟩
  · intro paras ht i h
    unfold findHeaderIdxBelow
    dsimp only
    rw [h]
  · intro paras ht h
    unfold findHeaderIdxBelow
    dsimp only
    rw [h]
  · intro nq p h
    simp only [containsBelowPred, Bool.and_eq_true] at h
    exact h.1.2
  · intro paras ht i h
    unfold findHeaderIdxBelow at h
    dsimp only at h
    cases h1 : firstIdx (exactBelowPred (lowerT (normalize_text ht))) paras with
    | some j =>
      rw [h1] at h
      cases h
      obtain ⟨⟨p, hp, hpred⟩, hmin⟩ := firstIdx_eq_some.mp h1
      exact ⟨⟨p, hp, Or.inl hpred⟩, fun j hj q hq => hmin j hj q hq⟩
    | none =>
      rw [h1] at h
      obtain ⟨⟨p, hp, hpred⟩, _⟩ := firstIdx_eq_some.mp h
      refine ⟨⟨p, hp, Or.inr hpred⟩, ?_⟩
      intro j _ q hq
      exact firstIdx_eq_none.mp h1 q (List.getElem?_mem hq)
  · intro paras ht i h
    unfold findHeadingIdxSection
    dsimp only
    rw [h]
  · intro paras ht h
    unfold findHeadingIdxSection
    dsimp only
    rw [h]
  · intro nq p h
    simp only [containsSectionPred, Bool.and_eq_true] at h
    exact h.1
  · intro paras ht i h
    unfold findHeadingIdxSection at h
    dsimp only at h
    cases h1 : firstIdx (exactSectionPred (normalize_text ht)) paras with
    | some j =>
      rw [h1] at h
      cases h
      obtain ⟨⟨p, hp, hpred⟩, hmin⟩ := firstIdx_eq_some.mp h1
      exact ⟨⟨p, hp, Or.inl hpred⟩, fun j hj q hq => hmin j hj q hq⟩
    | none =>
      rw [h1] at h
      obtain ⟨⟨p, hp, hpred⟩, _⟩ := firstIdx_eq_some.mp h
      refine ⟨⟨p, hp, Or.inr hpred⟩, ?_⟩
      intro j _ q hq
      exact firstIdx_eq_none.mp h1 q (List.getElem?_mem hq)
  · intro d ht nps style h
    unfold replace_paragraph_block_below_header
    dsimp only
    rw [h]
  · intro d ht inc h
    unfold get_section_paragraphs
    dsimp only
    rw [h]

/-! ## Claim C10 -/

/-- C10: with `whole_word=True`, `find_text` reports word indices.
Conjunct 1 characterizes the whole-word position list: `j` is reported for
a paragraph text iff the `j`-th entry of the whitespace-split word list is a
word `w` satisfying the source's condition `w == search_text or (not
match_case and w.lower() == search_text.lower())` — exact word equality (up
to lower-casing), never a substring hit.  Conjunct 2 lifts this to
`find_text`: every occurrence reported for a body paragraph locates a
matching word at word index `position` of that paragraph.  Conjuncts 3–5
contrast the modes concretely: `"cat"` in `"The cat, sat"` is not reported
whole-word (the word is `"cat,"`), while the substring mode reports
character offset 4, and in `"The cat sat"` whole-word reports word index 1
(not character offset 4). -/
theorem C10_whole_word :
    (∀ (mc : Bool) (t' q' : Text) (j : Nat),
      j ∈ ftPositions true mc t' q' ↔
        ∃ w, (splitWs t')[j]? = some w ∧
          (w = q' || (!mc && lowerT w = lowerT q')) = true) ∧
    (∀ (d : Document) (q : Text) (mc ipt : Bool) (occs : List Occ) (n : Nat),
      find_text (.doc d) q mc true ipt = .ok occs n →
      ∀ o ∈ occs, ∀ (i : Nat), o.loc = .body i →
        ∃ p w, d.paragraphs[i]? = some p ∧
          (splitWs (caseAdj mc p.text))[o.position]? = some w ∧
          (w = caseAdj mc q || (!mc && lowerT w = lowerT (caseAdj mc q)))
            = true) ∧
    find_text (.doc C10doc) (str "cat") true true false = .ok [] 0 ∧
    find_text (.doc C10doc) (str "cat") true false false =
      .ok [⟨.body 0, 4, .ctx (str "The cat, sat")⟩] 1 ∧
    find_text (.doc C10doc2) (str "cat") true true false =
      .ok [⟨.body 0, 1, .ctx (str "The cat sat")⟩] 1 := by
  have hchar : ∀ (mc : Bool) (t' q' : Text) (j : Nat),
      j ∈ ftPositions true mc t' q' ↔
        ∃ w, (splitWs t')[j]? = some w ∧
          (w = q' || (!mc && lowerT w = lowerT q')) = true := by
    intro mc t' q' j
    unfold ftPositions
    rw [if_pos rfl]
    constructor
    · intro hj
      rcases List.mem_map.mp hj with ⟨iw, hmem, hfst⟩
      rcases List.mem_filter.mp hmem with ⟨henum, hpred⟩
      obtain ⟨i, w⟩ := iw
      cases hfst
      exact ⟨w, List.mk_mem_enum_iff_getElem?.mp henum, by simpa using hpred⟩
    · rintro ⟨w, hw, hpred⟩
      refine List.mem_map.mpr ⟨(j, w), List.mem_filter.mpr
        ⟨List.mk_mem_enum_iff_getElem?.mpr hw, by simpa using hpred⟩, rfl⟩
  refine ⟨hchar, ?_, by decide, by decide, by decide⟩
  intro d q mc ipt occs n h o ho i hloc
  unfold find_text at h
  dsimp only at h
  split at h
  · exact FTRes.noConfusion h
  · injection h with h1 h2
    subst h1
    rcases List.mem_append.mp ho with hbody | htab
    · rcases List.mem_flatMap.mp hbody with ⟨ip, hip, hoin⟩
      rcases List.mem_map.mp hoin with ⟨pos, hpos, rfl⟩
      obtain ⟨pi, p⟩ := ip
      simp only [Occ.mk.injEq] at hloc ⊢
      cases hloc
      refine ⟨p, ?_⟩
      have hp := List.mk_mem_enum_iff_getElem?.mp hip
      rcases (hchar mc (caseAdj mc p.text) (caseAdj mc q) pos).mp hpos with
        ⟨w, hw, hcond⟩
      exact ⟨w, hp, hw, hcond⟩
    · exfalso
      rcases List.mem_flatMap.mp htab with ⟨it, _, hoin⟩
      rcases List.mem_flatMap.mp hoin with ⟨rr, _, hoin2⟩
      rcases List.mem_flatMap.mp hoin2 with ⟨cc, _, hoin3⟩
      rcases List.mem_flatMap.mp hoin3 with ⟨p, _, hoin4⟩
      rcases List.mem_map.mp hoin4 with ⟨pos, _, rfl⟩
      simp at hloc

end WordSrv
